import Mathlib

/-! # SuperPMI command line parser

A shallow embedding of `CommandLine::Parse` and `CommandLine::DumpHelp`
(`src/ToolBox/superpmi/superpmi/commandline.cpp`), followed by theorems about it.

* A C string is the list of its characters (the terminating NUL is left out).
* The argument vector is the list `argv`; `argv[0]` is the program name.
* `Options* o` is passed in and handed back inside the final `State`.
* Output (`LogError`, `DumpHelp`) and the calls into `Logger` are recorded as a
  list of events, in program order.
* Compile-time constants, the `#ifdef` switches and the external functions
  (`MCList::processArgAsMCL`, `atoi`) are the fields of `Env`.
-/

namespace SuperPMI

/-- A C string: its characters up to, not including, the terminating NUL. -/
abbrev CStr := List Char

/-! ## C library functions used by the parser -/

/-- C `strlen`. -/
def strlen (s : CStr) : Nat := s.length

/-- C `isdigit` in the "C" locale. -/
def isdigit (c : Char) : Bool := decide ('0'.toNat ≤ c.toNat ∧ c.toNat ≤ '9'.toNat)

/-- C `tolower` in the "C" locale. -/
def tolower (c : Char) : Char := c.toLower

/-- The CRT function `_strnicmp(s, t, n)`: compare at most `n` characters, ignoring
letter case; the result is negative, zero or positive. A string that ends
first compares smaller. -/
def _strnicmp : CStr → CStr → Nat → Int
  | _, _, 0 => 0
  | [], [], _ + 1 => 0
  | [], _ :: _, _ + 1 => -1
  | _ :: _, [], _ + 1 => 1
  | a :: s, b :: t, n + 1 =>
    if tolower a = tolower b then _strnicmp s t n
    else if tolower a < tolower b then -1 else 1

/-- The CRT function `_stricmp(s, t)`: compare whole strings, ignoring letter case. -/
def _stricmp : CStr → CStr → Int
  | [], [] => 0
  | [], _ :: _ => -1
  | _ :: _, [] => 1
  | a :: s, b :: t =>
    if tolower a = tolower b then _stricmp s t
    else if tolower a < tolower b then -1 else 1

/-- C `strrchr(s, c)`: the tail of `s` that starts at the last occurrence of `c`,
or `none` (the null pointer) when `c` does not occur. -/
def strrchr : CStr → Char → Option CStr
  | [], _ => none
  | a :: s, c =>
    match strrchr s c with
    | some r => some r
    | none => if a = c then some (a :: s) else none

/-! ## Data model -/

/-- Modelled from the spec: the class `CommandLine::Options` is declared in
`commandline.h`, which is not part of the source at hand. The fields are the ones
`Parse` reads and writes, under the names it uses. A `char*` field is an optional
string (`none` is `nullptr`), an `int` field is an integer, `indexes` is the
array the list resolver hands back. -/
structure Options where
  nameOfJit : Option CStr
  nameOfJit2 : Option CStr
  nameOfInputMethodContextFile : Option CStr
  writeLogFile : Option CStr
  reproName : Option CStr
  breakOnError : Bool
  breakOnAssert : Bool
  applyDiff : Bool
  parallel : Bool
  useCoreDisTools : Bool
  skipCleanup : Bool
  workerCount : Int
  indexCount : Int
  indexes : List Int
  hash : Option CStr
  methodStatsTypes : Option CStr
  mclFilename : Option CStr
  diffMCLFilename : Option CStr
  targetArchitecture : Option CStr
  compileList : Option CStr
  offset : Int
  increment : Int
deriving DecidableEq, Repr

/-- Modelled from the spec: the record as the caller constructs it before parsing,
every field at its default: strings unset, toggles false, no indices, and the
integer fields at the "unset" value `-1`. -/
def Options.default : Options where
  nameOfJit := none
  nameOfJit2 := none
  nameOfInputMethodContextFile := none
  writeLogFile := none
  reproName := none
  breakOnError := false
  breakOnAssert := false
  applyDiff := false
  parallel := false
  useCoreDisTools := false
  skipCleanup := false
  workerCount := -1
  indexCount := -1
  indexes := []
  hash := none
  methodStatsTypes := none
  mclFilename := none
  diffMCLFilename := none
  targetArchitecture := none
  compileList := none
  offset := -1
  increment := -1

/-- What the parser writes or asks the logger to do, in program order. The
arguments substituted into a `LogError` format string are not recorded. -/
inductive Event
  | LogError (format : String)
  | DumpHelp (program : CStr)
  | SetLogLevel (spec : CStr)
  | OpenLogFile (path : CStr)
deriving DecidableEq, Repr

/-- Everything outside `commandline.cpp` that `Parse` depends on. -/
structure Env where
  /-- `FEATURE_PAL` is defined (non-Windows build): only `-` introduces a switch. -/
  FEATURE_PAL : Bool
  /-- The macro `PLATFORM_SHARED_LIB_SUFFIX_A`, for instance `.so` or `.dll`. -/
  PLATFORM_SHARED_LIB_SUFFIX_A : CStr
  /-- The constant `MAXIMUM_WAIT_OBJECTS`. -/
  MAXIMUM_WAIT_OBJECTS : Int
  /-- The constant `MD5_HASH_BUFFER_SIZE`. -/
  MD5_HASH_BUFFER_SIZE : Int
  /-- `USE_COREDISTOOLS` is defined. -/
  USE_COREDISTOOLS : Bool
  /-- `MCList::processArgAsMCL(input, &count, &list)`: from the input and the old
  contents of `count` and `list` to the return value and their new contents. -/
  processArgAsMCL : CStr → Int → List Int → Bool × Int × List Int
  /-- C `atoi`. -/
  atoi : CStr → Int

/-- The parser's variables: the record `*o`, the locals `foundJit` and `foundFile`,
and the output produced so far. -/
structure State where
  o : Options
  foundJit : Bool
  foundFile : Bool
  out : List Event
deriving DecidableEq, Repr

/-- How one pass through the body of the `for` loop ends. -/
inductive Step
  /-- The body executed `return false`. -/
  | ret (st : State)
  /-- The body fell through to the loop's `i++`, after advancing `i` itself by `used`. -/
  | next (st : State) (used : Nat)
deriving DecidableEq, Repr

/-- How the `for` loop ends. -/
inductive Scan
  /-- Some pass executed `return false`. -/
  | ret (st : State)
  /-- The loop ran to `i == argc`. -/
  | done (st : State)
deriving DecidableEq, Repr

/-- The branches of the `if`/`else if` chain on a switch token, in source order. -/
inductive Switch
  | help | load | jit | reproName | failingMCList | diffMCList | target | boe | boa
  | verbosity | writeLogFile | emitMethodStats | applyDiff | compile | coredistools
  | matchHash | parallel | skipCleanup | stride | unknown
deriving DecidableEq, Repr

/-! ## The program -/

/-- `CommandLine::DumpHelp(program)`: prints the usage text. The text is fixed but
for the program name, so the call is recorded as one event. -/
def DumpHelp (program : CStr) : List Event := [Event.DumpHelp program]

/-- `DumpHelp(argv[0]); return false;` -/
def failHelp (prog : CStr) (st : State) : Step :=
  Step.ret { st with out := st.out ++ DumpHelp prog }

/-- `LogError(format, ...); DumpHelp(argv[0]); return false;` -/
def failError (prog : CStr) (format : String) (st : State) : Step :=
  Step.ret { st with out := st.out ++ [Event.LogError format] ++ DumpHelp prog }

/-- `bool isASwitch`: the token starts with `-`, or with `/` unless `FEATURE_PAL`. -/
def isASwitch (e : Env) (tok : CStr) : Bool :=
  match tok with
  | [] => false
  | c :: _ => c = '-' || (!e.FEATURE_PAL && c = '/')

/-- The `if`/`else if` chain over `&argv[i][1]` (here `name`) with
`argLen = strlen(argv[i]) - 1`: the first comparison that yields 0 selects the
branch. -/
def switchOf (e : Env) (name : CStr) (argLen : Nat) : Switch :=
  if _strnicmp name "help".toList argLen = 0 ∨ _strnicmp name "HELP".toList argLen = 0
      ∨ _strnicmp name "?".toList argLen = 0 then Switch.help
  else if _strnicmp name "load".toList argLen = 0 then Switch.load
  else if _strnicmp name "jit".toList argLen = 0 then Switch.jit
  else if _strnicmp name "reproName".toList argLen = 0 then Switch.reproName
  else if _strnicmp name "failingMCList".toList argLen = 0 then Switch.failingMCList
  else if _strnicmp name "diffMCList".toList 10 = 0 then Switch.diffMCList
  else if _strnicmp name "target".toList 6 = 0 then Switch.target
  else if _strnicmp name "boe".toList 3 = 0 then Switch.boe
  else if _strnicmp name "boa".toList 3 = 0 then Switch.boa
  else if _strnicmp name "verbosity".toList argLen = 0 then Switch.verbosity
  else if _strnicmp name "writeLogFile".toList argLen = 0 then Switch.writeLogFile
  else if _strnicmp name "emitMethodStats".toList argLen = 0 then Switch.emitMethodStats
  else if _strnicmp name "applyDiff".toList argLen = 0 then Switch.applyDiff
  else if _strnicmp name "compile".toList argLen = 0 then Switch.compile
  else if e.USE_COREDISTOOLS ∧ _strnicmp name "coredistools".toList argLen = 0 then
    Switch.coredistools
  else if _strnicmp name "matchHash".toList argLen = 0 then Switch.matchHash
  else if _strnicmp name "parallel".toList argLen = 0 then Switch.parallel
  else if _stricmp name "skipCleanup".toList = 0 then Switch.skipCleanup
  else if _strnicmp name "stride".toList argLen = 0 then Switch.stride
  else Switch.unknown

/-- The label `processMethodContext:` with `argv[i] = arg`; `used` is how far `i`
has been advanced to get here. -/
def processMethodContext (prog arg : CStr) (used : Nat) (st : State) : Step :=
  if strlen arg = 0 then
    failError prog "Arg '%s' is invalid, name of file missing." st
  else
    Step.next { st with
      o := { st.o with nameOfInputMethodContextFile := some arg }
      foundFile := true } used

/-- The label `processJit:` with `argv[i] = arg`. -/
def processJit (prog arg : CStr) (used : Nat) (st : State) : Step :=
  if strlen arg = 0 then
    failError prog "Arg '%s' is invalid, name of jit missing." st
  else if !st.foundJit then
    Step.next { st with o := { st.o with nameOfJit := some arg }, foundJit := true } used
  else
    Step.next { st with o := { st.o with nameOfJit2 := some arg } } used

/-- `if (++i >= argc) { DumpHelp(argv[0]); return false; }`, then the code `f` that
follows, which sees the next token as `argv[i]`. -/
def withValue (prog : CStr) (st : State) (rest : List CStr) (f : CStr → Step) : Step :=
  match rest with
  | [] => failHelp prog st
  | v :: _ => f v

/-- The body of the branch selected for a switch token; `rest` holds the tokens
after it. -/
def execSwitch (e : Env) (prog : CStr) (rest : List CStr) (st : State) :
    Switch → Step
  | Switch.help => failHelp prog st
  | Switch.load => withValue prog st rest fun v => processMethodContext prog v 1 st
  | Switch.jit => withValue prog st rest fun v => processJit prog v 1 st
  | Switch.reproName => withValue prog st rest fun v =>
      if strlen v = 0 then failError prog "Arg '%s' is invalid, name of prefix missing." st
      else Step.next { st with o := { st.o with reproName := some v } } 1
  | Switch.failingMCList => withValue prog st rest fun v =>
      Step.next { st with o := { st.o with mclFilename := some v } } 1
  | Switch.diffMCList => withValue prog st rest fun v =>
      Step.next { st with o := { st.o with diffMCLFilename := some v } } 1
  | Switch.target => withValue prog st rest fun v =>
      Step.next { st with o := { st.o with targetArchitecture := some v } } 1
  | Switch.boe => Step.next { st with o := { st.o with breakOnError := true } } 0
  | Switch.boa => Step.next { st with o := { st.o with breakOnAssert := true } } 0
  | Switch.verbosity => withValue prog st rest fun v =>
      Step.next { st with out := st.out ++ [Event.SetLogLevel v] } 1
  | Switch.writeLogFile => withValue prog st rest fun v =>
      Step.next { st with
        o := { st.o with writeLogFile := some v }
        out := st.out ++ [Event.OpenLogFile v] } 1
  | Switch.emitMethodStats => withValue prog st rest fun v =>
      Step.next { st with o := { st.o with methodStatsTypes := some v } } 1
  | Switch.applyDiff => Step.next { st with o := { st.o with applyDiff := true } } 0
  | Switch.compile => withValue prog st rest fun v =>
      let r := e.processArgAsMCL v st.o.indexCount st.o.indexes
      let st1 : State := { st with o := { st.o with indexCount := r.2.1, indexes := r.2.2 } }
      if !r.1 then
        failError prog "Arg '%s' is invalid, needed method context list." st1
      else if st1.o.hash ≠ none then
        failError prog "Cannot use both method context list and method context hash." st1
      else if st1.o.offset > 0 ∧ st1.o.increment > 0 then
        failError prog "Cannot use method context list in parallel mode." st1
      else
        Step.next { st1 with o := { st1.o with compileList := some v } } 1
  | Switch.coredistools => Step.next { st with o := { st.o with useCoreDisTools := true } } 0
  | Switch.matchHash => withValue prog st rest fun v =>
      if (strlen v : Int) ≠ e.MD5_HASH_BUFFER_SIZE - 1 then
        failError prog "Arg '%s' is invalid, needed a valid method context hash." st
      else if st.o.indexCount > 0 then
        failError prog "Cannot use both method context list and method context hash." st
      else if st.o.offset > 0 ∧ st.o.increment > 0 then
        failError prog "Cannot use method context hash in parallel mode." st
      else
        Step.next { st with o := { st.o with hash := some v } } 1
  | Switch.parallel =>
      let st1 : State := { st with o := { st.o with parallel := true } }
      match rest with
      | [] => Step.next st1 0
      | nxt :: _ =>
        if nxt.all isdigit then
          let st2 : State := { st1 with o := { st1.o with workerCount := e.atoi nxt } }
          if st2.o.workerCount < 1 then
            failError prog
              "Invalid workers count specified, workers count must be at least 1." st2
          else if st2.o.workerCount > e.MAXIMUM_WAIT_OBJECTS then
            failError prog
              "Invalid workers count specified, workers count cannot be more than %d." st2
          else Step.next st2 1
        else Step.next st1 0
  | Switch.skipCleanup => Step.next { st with o := { st.o with skipCleanup := true } } 0
  | Switch.stride => withValue prog st rest fun v =>
      let st1 : State := { st with o := { st.o with offset := e.atoi v } }
      withValue prog st1 rest.tail fun w =>
        let st2 : State := { st1 with o := { st1.o with increment := e.atoi w } }
        if st2.o.offset < 1 ∨ st2.o.increment < 1 then
          failError prog
            "Incorrect offset/increment specified for -stride. Offset and increment both must be > 0."
            st2
        else if st2.o.indexCount > 0 then
          failError prog "Cannot use method context list in parallel mode." st2
        else if st2.o.hash ≠ none then
          failError prog "Cannot use method context hash in parallel mode." st2
        else Step.next st2 2
  | Switch.unknown => failError prog "Unknown switch '%s' passed as argument." st

/-- The `else` part of the loop body: `argv[i] = tok` is an input file name,
classified by the text from its last `.` on. -/
def positional (e : Env) (prog : CStr) (tok : CStr) (st : State) : Step :=
  match strrchr tok '.' with
  | none => failHelp prog st
  | some lastdot =>
    if _stricmp lastdot e.PLATFORM_SHARED_LIB_SUFFIX_A = 0 then processJit prog tok 0 st
    else if _stricmp lastdot ".mc".toList = 0 then processMethodContext prog tok 0 st
    else if _stricmp lastdot ".mch".toList = 0 then processMethodContext prog tok 0 st
    else if _stricmp lastdot ".mct".toList = 0 then processMethodContext prog tok 0 st
    else failError prog "Unknown file type passed as argument, '%s'." st

/-- One pass through the body of the `for` loop with `argv[i] = tok`; `rest` is
`argv[i+1 ..]`. -/
def step (e : Env) (prog : CStr) (st : State) (tok : CStr) (rest : List CStr) : Step :=
  if isASwitch e tok then
    if strlen tok > 1 then
      execSwitch e prog rest st (switchOf e tok.tail (strlen tok - 1))
    else failHelp prog st
  else positional e prog tok st

/-- The loop `for (int i = 1; i < argc; i++)` over the tokens from `argv[i]` on.
The counter is the number of tokens the previous pass has already consumed by
advancing `i` itself: they are passed over. -/
def loop (e : Env) (prog : CStr) : Nat → State → List CStr → Scan
  | _, st, [] => Scan.done st
  | used + 1, st, _ :: rest => loop e prog used st rest
  | 0, st, tok :: rest =>
    match step e prog st tok rest with
    | Step.ret st1 => Scan.ret st1
    | Step.next st1 used => loop e prog used st1 rest

/-- The argument validation after the loop: the five checks in source order. -/
def validate (prog : CStr) (st : State) : Bool × State :=
  let fail (format : String) : Bool × State :=
    (false, { st with out := st.out ++ [Event.LogError format] ++ DumpHelp prog })
  if st.o.nameOfJit = none then fail "Missing name of a Jit."
  else if st.o.nameOfInputMethodContextFile = none then fail "Missing name of an input file."
  else if st.o.diffMCLFilename ≠ none ∧ !st.o.applyDiff then
    fail "-diffMCList specified without -applyDiff."
  else if st.o.targetArchitecture ≠ none
      ∧ _stricmp (st.o.targetArchitecture.getD []) "arm64".toList ≠ 0 then
    fail "Illegal target architecture specified with -target (only arm64 is supported)."
  else if st.o.skipCleanup ∧ !st.o.parallel then fail "-skipCleanup requires -parallel."
  else (true, st)

/-- The locals as `Parse` initialises them (`foundJit = false`, `foundFile = false`),
the record as passed in, and nothing written yet. -/
def State.init (o : Options) : State :=
  { o := o, foundJit := false, foundFile := false, out := [] }

/-- `CommandLine::Parse(argc, argv, o)` with `argc = argv.length`: the return value,
and the final state, whose field `o` is the record `*o` after the call. -/
def Parse (e : Env) (argv : List CStr) (o : Options) : Bool × State :=
  let prog := argv.headD []
  let st0 : State := State.init o
  if argv.length = 1 then
    (false, { st0 with out := st0.out ++ DumpHelp prog })
  else
    match loop e prog 0 st0 argv.tail with
    | Scan.ret st => (false, st)
    | Scan.done st => validate prog st

/-! ## Vocabulary for the statements

Derived notions used to state the properties: which loop heads a scan passes,
which token a pass hands to `processJit` or `processMethodContext`, the selection
modes of a record, and the assumptions on the external functions. -/

/-- The branch a token selects when the loop body sees it as `argv[i]`: defined for a
switch token of length above 1, the only tokens that reach the `if`/`else if` chain. -/
def selects (e : Env) (tok : CStr) : Option Switch :=
  if isASwitch e tok ∧ strlen tok > 1 then some (switchOf e tok.tail (strlen tok - 1))
  else none

/-- The loop heads a scan passes, in order: each state in which the loop condition
`i < argc` was found true, paired with the tokens from `argv[i]` on. A token is
classified (as a switch or positionally) exactly when it is the first token of
such a pair; a token consumed as the value of a switch never is. -/
def heads (e : Env) (prog : CStr) : Nat → State → List CStr → List (State × List CStr)
  | _, _, [] => []
  | used + 1, st, _ :: rest => heads e prog used st rest
  | 0, st, tok :: rest =>
    (st, tok :: rest) ::
      match step e prog st tok rest with
      | Step.ret _ => []
      | Step.next st1 used => heads e prog used st1 rest

/-- The loop heads `Parse e argv o` passes. -/
def parseHeads (e : Env) (argv : List CStr) (o : Options) : List (State × List CStr) :=
  heads e (argv.headD []) 0 (State.init o) argv.tail

/-- The token that the pass over `tok` (followed by `rest`) takes to the label
`processJit`, if it gets there: the value of a `-jit` switch, or `tok` itself when it
is positional with the shared-library suffix. -/
def jitArg (e : Env) (tok : CStr) (rest : List CStr) : Option CStr :=
  if isASwitch e tok then
    if selects e tok = some Switch.jit then rest.head? else none
  else
    match strrchr tok '.' with
    | none => none
    | some lastdot =>
      if _stricmp lastdot e.PLATFORM_SHARED_LIB_SUFFIX_A = 0 then some tok else none

/-- The token that the pass over `tok` takes to the label `processMethodContext`, if
it gets there: the value of a `-load` switch, or `tok` itself when it is positional
with extension `.mc`, `.mch` or `.mct` (and not the shared-library suffix, which is
tested first). -/
def contextArg (e : Env) (tok : CStr) (rest : List CStr) : Option CStr :=
  if isASwitch e tok then
    if selects e tok = some Switch.load then rest.head? else none
  else
    match strrchr tok '.' with
    | none => none
    | some lastdot =>
      if _stricmp lastdot e.PLATFORM_SHARED_LIB_SUFFIX_A = 0 then none
      else if _stricmp lastdot ".mc".toList = 0 ∨ _stricmp lastdot ".mch".toList = 0
          ∨ _stricmp lastdot ".mct".toList = 0 then some tok
      else none

/-- Apply `f` to the first token of each loop head and the tokens after it, keeping
the results. -/
def overHeads (f : CStr → List CStr → Option CStr) (hs : List (State × List CStr)) :
    List CStr :=
  hs.filterMap fun c =>
    match c.2 with
    | [] => none
    | tok :: rest => f tok rest

/-- The tokens `Parse e argv o` processes as compiler paths, in order. -/
def compilerPaths (e : Env) (argv : List CStr) (o : Options) : List CStr :=
  overHeads (jitArg e) (parseHeads e argv o)

/-- The tokens `Parse e argv o` processes as context files, in order. -/
def contextFiles (e : Env) (argv : List CStr) (o : Options) : List CStr :=
  overHeads (contextArg e) (parseHeads e argv o)

/-- Index-list selection is on: `indexCount > 0`. -/
def Options.listMode (o : Options) : Bool := decide (o.indexCount > 0)

/-- Hash selection is on: `hash != nullptr`. -/
def Options.hashMode (o : Options) : Bool := o.hash.isSome

/-- Stride mode is on: `offset > 0 && increment > 0`. -/
def Options.strideMode (o : Options) : Bool := decide (o.offset > 0 ∧ o.increment > 0)

/-- At most one of the three selection modes is on. -/
def Options.exclusive (o : Options) : Bool :=
  !(o.listMode && o.hashMode) && !(o.listMode && o.strideMode) && !(o.hashMode && o.strideMode)

/-- The three selection switches. -/
def Switch.isSelection : Switch → Bool
  | Switch.compile => true
  | Switch.matchHash => true
  | Switch.stride => true
  | _ => false

/-- How many of `nameOfJit` and `nameOfInputMethodContextFile` are set. -/
def Options.namesSet (o : Options) : Nat :=
  (if o.nameOfJit.isSome then 1 else 0) + (if o.nameOfInputMethodContextFile.isSome then 1 else 0)

/-- The record with the three file names `nameOfJit`, `nameOfJit2` and
`nameOfInputMethodContextFile` cleared: what is left are the option fields. -/
def Options.clearNames (o : Options) : Options :=
  { o with nameOfJit := none, nameOfJit2 := none, nameOfInputMethodContextFile := none }

/-- The state with `o->parallel` set, nothing else changed. -/
def State.setParallel (st : State) : State :=
  { st with o := { st.o with parallel := true } }

/-- The outcome of a pass with `o->parallel` set in its state, nothing else changed. -/
def Step.setParallel : Step → Step
  | Step.ret st => Step.ret st.setParallel
  | Step.next st used => Step.next st.setParallel used

/-- The switches that may be abbreviated (their comparison length is the length of the
token), with the names the chain compares them to. -/
def abbreviable : List (CStr × Switch) :=
  [("load".toList, Switch.load), ("jit".toList, Switch.jit),
    ("reproName".toList, Switch.reproName), ("failingMCList".toList, Switch.failingMCList),
    ("verbosity".toList, Switch.verbosity), ("writeLogFile".toList, Switch.writeLogFile),
    ("emitMethodStats".toList, Switch.emitMethodStats), ("applyDiff".toList, Switch.applyDiff),
    ("compile".toList, Switch.compile), ("matchHash".toList, Switch.matchHash),
    ("parallel".toList, Switch.parallel), ("stride".toList, Switch.stride)]

/-- The switches whose branch begins with `if (++i >= argc)`: they take the token
after them as their value. -/
def Switch.takesValue : Switch → Bool
  | Switch.load => true
  | Switch.jit => true
  | Switch.reproName => true
  | Switch.failingMCList => true
  | Switch.diffMCList => true
  | Switch.target => true
  | Switch.verbosity => true
  | Switch.writeLogFile => true
  | Switch.emitMethodStats => true
  | Switch.compile => true
  | Switch.matchHash => true
  | Switch.stride => true
  | _ => false

/-- The event is a printing of the usage text. -/
def Event.isUsage : Event → Bool
  | Event.DumpHelp _ => true
  | _ => false

/-- The event is a diagnostic message (`LogError`). -/
def Event.isError : Event → Bool
  | Event.LogError _ => true
  | _ => false

/-- The state in which a scan ends, whichever way it ends. -/
def Scan.state : Scan → State
  | Scan.ret st => st
  | Scan.done st => st

/-- The passes whose only way to return false is `DumpHelp(argv[0]); return false;`
without a diagnostic: over a switch token that is the introducer alone, over a help
switch, over a value-taking switch with no token left for its value (for `-stride`,
for either of its two values), and over a positional token without a `.`. -/
def quietPass (e : Env) (tok : CStr) (rest : List CStr) : Bool :=
  if isASwitch e tok then
    match selects e tok with
    | none => true
    | some sw =>
      decide (sw = Switch.help) || (sw.takesValue && decide (rest = []))
        || (decide (sw = Switch.stride) && decide (rest.length = 1))
  else (strrchr tok '.').isNone

/-- The three variables the label `processJit` works on: `nameOfJit`, `nameOfJit2` and
the local `foundJit`. -/
def State.jitSlots (st : State) : Option CStr × Option CStr × Bool :=
  (st.o.nameOfJit, st.o.nameOfJit2, st.foundJit)

/-- What the label `processJit` does to these three variables for a non-empty path. -/
def fillJitSlot (s : Option CStr × Option CStr × Bool) (p : CStr) :
    Option CStr × Option CStr × Bool :=
  if !s.2.2 then (some p, s.2.1, true) else (s.1, some p, s.2.2)

/-- The number a string of decimal digits denotes. -/
def decimalValue (s : CStr) : Nat :=
  s.foldl (fun acc c => 10 * acc + (c.toNat - '0'.toNat)) 0

/-- What the C standard promises of `atoi` on a digit string: the number it denotes,
provided that number is representable as a (32-bit) `int`. -/
def AtoiConforms (e : Env) : Prop :=
  ∀ s : CStr, s ≠ [] → s.all isdigit = true → decimalValue s < 2 ^ 31 →
    e.atoi s = (decimalValue s : Int)

/-! ## A concrete environment

The Linux build on a 64-bit host, used to evaluate the parser on concrete
command lines. -/

/-- C `isspace` in the "C" locale. -/
def isspace (c : Char) : Bool :=
  decide (c = ' ' ∨ ('\t'.toNat ≤ c.toNat ∧ c.toNat ≤ '\r'.toNat))

/-- The digit-accumulating loop of `strtol` in base 10: stops at the first non-digit. -/
def strtolDigits : Nat → CStr → Nat
  | acc, [] => acc
  | acc, c :: s => if isdigit c then strtolDigits (10 * acc + (c.toNat - '0'.toNat)) s else acc

/-- C `strtol(s, NULL, 10)` with a 64-bit `long`: leading white space, an optional
sign, digits; out-of-range values are clamped to `LONG_MIN`/`LONG_MAX`. -/
def strtol10 (s : CStr) : Int :=
  let v : Int :=
    match s.dropWhile isspace with
    | '-' :: r => -(strtolDigits 0 r : Int)
    | '+' :: r => (strtolDigits 0 r : Int)
    | r => (strtolDigits 0 r : Int)
  max (-(2 ^ 63)) (min (2 ^ 63 - 1) v)

/-- The C library's `atoi` on an LP64 host, `(int) strtol(s, NULL, 10)`: the value of
`strtol` reduced to a 32-bit two's complement `int`. -/
def atoiLP64 (s : CStr) : Int := (strtol10 s + 2 ^ 31) % 2 ^ 32 - 2 ^ 31

/-- A stand-in for the list resolver that knows two literal lists: `5,10-12` and `7`. -/
def demoResolver (s : CStr) (count : Int) (list : List Int) : Bool × Int × List Int :=
  if s = "5,10-12".toList then (true, 4, [5, 10, 11, 12])
  else if s = "7".toList then (true, 1, [7])
  else (false, count, list)

/-- The Linux build: `FEATURE_PAL`, suffix `.so`, `MAXIMUM_WAIT_OBJECTS = 64`,
`MD5_HASH_BUFFER_SIZE = 33`, no CoreDisTools. -/
def linux : Env where
  FEATURE_PAL := true
  PLATFORM_SHARED_LIB_SUFFIX_A := ".so".toList
  MAXIMUM_WAIT_OBJECTS := 64
  MD5_HASH_BUFFER_SIZE := 33
  USE_COREDISTOOLS := false
  processArgAsMCL := demoResolver
  atoi := atoiLP64

/-- A command line as the list of its tokens. -/
def cmd (words : List String) : List CStr := words.map String.toList

/-! # Theorems -/

/-! ## The loop -/

theorem loop_nil (e : Env) (prog : CStr) (used : Nat) (st : State) :
    loop e prog used st [] = Scan.done st := by
  cases used <;> rfl

theorem loop_zero_cons (e : Env) (prog : CStr) (st : State) (tok : CStr) (rest : List CStr) :
    loop e prog 0 st (tok :: rest) =
      match step e prog st tok rest with
      | Step.ret st1 => Scan.ret st1
      | Step.next st1 used => loop e prog used st1 rest := rfl

theorem loop_of_next {e : Env} {prog : CStr} {st st1 : State} {tok : CStr} {rest : List CStr}
    {k : Nat} (h : step e prog st tok rest = Step.next st1 k) :
    loop e prog 0 st (tok :: rest) = loop e prog k st1 rest := by
  rw [loop_zero_cons, h]

theorem loop_of_ret {e : Env} {prog : CStr} {st st1 : State} {tok : CStr} {rest : List CStr}
    (h : step e prog st tok rest = Step.ret st1) :
    loop e prog 0 st (tok :: rest) = Scan.ret st1 := by
  rw [loop_zero_cons, h]

theorem loop_drop (e : Env) (prog : CStr) (st : State) :
    ∀ (toks : List CStr) (used : Nat),
      loop e prog used st toks = loop e prog 0 st (toks.drop used)
  | [], used => by simp [loop_nil]
  | _ :: rest, 0 => by simp
  | _ :: rest, used + 1 => by
    show loop e prog used st rest = _
    rw [loop_drop e prog st rest used]; simp

theorem heads_zero_cons (e : Env) (prog : CStr) (st : State) (tok : CStr) (rest : List CStr) :
    heads e prog 0 st (tok :: rest) =
      (st, tok :: rest) ::
        match step e prog st tok rest with
        | Step.ret _ => []
        | Step.next st1 used => heads e prog used st1 rest := rfl

theorem step_next_elim {e : Env} {prog : CStr} {st st1 : State} {tok : CStr} {rest : List CStr}
    {k : Nat} (h : step e prog st tok rest = Step.next st1 k) :
    (isASwitch e tok = true ∧ strlen tok > 1 ∧
        execSwitch e prog rest st (switchOf e tok.tail (strlen tok - 1)) = Step.next st1 k) ∨
      (isASwitch e tok = false ∧ positional e prog tok st = Step.next st1 k) := by
  unfold step at h
  split_ifs at h with h1 h2
  · exact Or.inl ⟨h1, h2, h⟩
  · cases h
  · exact Or.inr ⟨by simpa using h1, h⟩

/-- Induction over a scan that runs to the end: a property that every successful
pass preserves holds at the end if it holds at the start. -/
theorem loop_done_inv {e : Env} {prog : CStr} (P : State → Prop)
    (hstep : ∀ st tok rest st1 k, P st → step e prog st tok rest = Step.next st1 k → P st1) :
    ∀ (toks : List CStr) (used : Nat) (st stf : State),
      P st → loop e prog used st toks = Scan.done stf → P stf
  | [], used, st, stf, hP, h => by
    rw [loop_nil] at h; cases h; exact hP
  | _ :: rest, used + 1, st, stf, hP, h =>
    loop_done_inv P hstep rest used st stf hP h
  | tok :: rest, 0, st, stf, hP, h => by
    rw [loop_zero_cons] at h
    cases hs : step e prog st tok rest with
    | ret st1 => rw [hs] at h; cases h
    | next st1 k =>
      rw [hs] at h
      exact loop_done_inv P hstep rest k st1 stf (hstep _ _ _ _ _ hP hs) h

/-- A loop head of a scan that runs to the end: its pass succeeds, and the rest of
the scan ends in the same final state. -/
theorem heads_done {e : Env} {prog : CStr} {stf : State} {c : State × List CStr} :
    ∀ (toks : List CStr) (used : Nat) (st : State),
      c ∈ heads e prog used st toks → loop e prog used st toks = Scan.done stf →
      ∃ tok rest st1 k, c.2 = tok :: rest ∧ step e prog c.1 tok rest = Step.next st1 k ∧
        loop e prog k st1 rest = Scan.done stf
  | [], used, st, hc, _ => by cases used <;> simp [heads] at hc
  | _ :: rest, used + 1, st, hc, h => heads_done rest used st hc h
  | tok :: rest, 0, st, hc, h => by
    rw [heads_zero_cons] at hc
    rw [loop_zero_cons] at h
    cases hs : step e prog st tok rest with
    | ret st1 => rw [hs] at h; cases h
    | next st1 k =>
      rw [hs] at h hc
      rcases List.mem_cons.1 hc with rfl | hc
      · exact ⟨tok, rest, st1, k, rfl, hs, h⟩
      · exact heads_done rest k st1 hc h

/-! ## The validation and `Parse` -/

theorem validate_true {prog : CStr} {st : State} (h : (validate prog st).1 = true) :
    validate prog st = (true, st) ∧ st.o.nameOfJit ≠ none ∧
      st.o.nameOfInputMethodContextFile ≠ none ∧
      (st.o.diffMCLFilename ≠ none → st.o.applyDiff = true) ∧
      (∀ t, st.o.targetArchitecture = some t → _stricmp t "arm64".toList = 0) ∧
      (st.o.skipCleanup = true → st.o.parallel = true) := by
  unfold validate at h ⊢
  dsimp only at h ⊢
  split_ifs at h with h1 h2 h3 h4 h5
  rw [if_neg h1, if_neg h2, if_neg h3, if_neg h4, if_neg h5]
  refine ⟨rfl, h1, h2, ?_, ?_, ?_⟩
  · intro hd; by_contra hn; exact h3 ⟨hd, by simpa using hn⟩
  · intro t ht; by_contra hn; exact h4 ⟨by simp [ht], by simpa [ht] using hn⟩
  · intro hsk; by_contra hn; exact h5 ⟨hsk, by simpa using hn⟩

theorem validate_of (prog : CStr) (st : State) (h1 : st.o.nameOfJit ≠ none)
    (h2 : st.o.nameOfInputMethodContextFile ≠ none)
    (h3 : st.o.diffMCLFilename ≠ none → st.o.applyDiff = true)
    (h4 : ∀ t, st.o.targetArchitecture = some t → _stricmp t "arm64".toList = 0)
    (h5 : st.o.skipCleanup = true → st.o.parallel = true) :
    validate prog st = (true, st) := by
  unfold validate
  dsimp only
  rw [if_neg h1, if_neg h2, if_neg, if_neg, if_neg]
  · rintro ⟨ha, hb⟩; rw [h5 ha] at hb; simp at hb
  · rintro ⟨ha, hb⟩
    obtain ⟨t, ht⟩ := Option.ne_none_iff_exists'.1 ha
    exact hb (by simpa [ht] using h4 t ht)
  · rintro ⟨ha, hb⟩; rw [h3 ha] at hb; simp at hb

theorem Parse_true {e : Env} {argv : List CStr} {o : Options}
    (h : (Parse e argv o).1 = true) :
    ∃ stf, argv.length ≠ 1 ∧
      loop e (argv.headD []) 0 (State.init o) argv.tail = Scan.done stf ∧
      (validate (argv.headD []) stf).1 = true ∧ Parse e argv o = (true, stf) := by
  unfold Parse at h ⊢
  dsimp only at h ⊢
  split_ifs at h with h1
  cases hl : loop e (argv.headD []) 0 (State.init o) argv.tail with
  | ret st => rw [hl] at h; cases h
  | done st =>
    rw [hl] at h
    dsimp only at h
    refine ⟨st, h1, rfl, h, ?_⟩
    rw [if_neg h1]
    exact (validate_true h).1

theorem Parse_of_done {e : Env} {argv : List CStr} {o : Options} {stf : State}
    (h1 : argv.length ≠ 1)
    (h2 : loop e (argv.headD []) 0 (State.init o) argv.tail = Scan.done stf) :
    Parse e argv o = validate (argv.headD []) stf := by
  unfold Parse
  dsimp only
  rw [if_neg h1, h2]

theorem Parse_of_ret {e : Env} {argv : List CStr} {o : Options} {stf : State}
    (h2 : loop e (argv.headD []) 0 (State.init o) argv.tail = Scan.ret stf) :
    (Parse e argv o).1 = false := by
  unfold Parse
  dsimp only
  split_ifs
  · rfl
  · rw [h2]


/-! ## Which passes set the compiler path and the context file -/

theorem selects_of_switch {e : Env} {tok : CStr} (h1 : isASwitch e tok = true)
    (h2 : strlen tok > 1) : selects e tok = some (switchOf e tok.tail (strlen tok - 1)) := by
  unfold selects
  rw [if_pos ⟨h1, h2⟩]

theorem execSwitch_nameOfJit {e : Env} {prog : CStr} {st st1 : State} {rest : List CStr}
    {sw : Switch} {k : Nat} (h : execSwitch e prog rest st sw = Step.next st1 k) :
    (sw = Switch.jit ∧ rest ≠ []) ∨ st1.o.nameOfJit = st.o.nameOfJit := by
  cases sw <;> rcases rest with _ | ⟨v, _ | ⟨w, r⟩⟩ <;>
    simp only [execSwitch, withValue, List.tail, failHelp, failError, processMethodContext,
      processJit] at h <;>
    (try split_ifs at h) <;> cases h <;> first | exact Or.inr rfl | exact Or.inl ⟨rfl, by simp⟩

theorem execSwitch_contextFile {e : Env} {prog : CStr} {st st1 : State} {rest : List CStr}
    {sw : Switch} {k : Nat} (h : execSwitch e prog rest st sw = Step.next st1 k) :
    (sw = Switch.load ∧ rest ≠ []) ∨
      st1.o.nameOfInputMethodContextFile = st.o.nameOfInputMethodContextFile := by
  cases sw <;> rcases rest with _ | ⟨v, _ | ⟨w, r⟩⟩ <;>
    simp only [execSwitch, withValue, List.tail, failHelp, failError, processMethodContext,
      processJit] at h <;>
    (try split_ifs at h) <;> cases h <;> first | exact Or.inr rfl | exact Or.inl ⟨rfl, by simp⟩

theorem step_nameOfJit {e : Env} {prog : CStr} {st st1 : State} {tok : CStr}
    {rest : List CStr} {k : Nat} (h : step e prog st tok rest = Step.next st1 k) :
    (jitArg e tok rest).isSome = true ∨ st1.o.nameOfJit = st.o.nameOfJit := by
  rcases step_next_elim h with ⟨h1, h2, h3⟩ | ⟨h1, h3⟩
  · rcases execSwitch_nameOfJit h3 with ⟨hsw, hr⟩ | hsame
    · left
      unfold jitArg
      rw [if_pos h1, selects_of_switch h1 h2, hsw, if_pos rfl]
      cases rest with
      | nil => exact absurd rfl hr
      | cons v r => rfl
    · exact Or.inr hsame
  · unfold jitArg
    rw [h1]
    unfold positional at h3
    cases hd : strrchr tok '.' with
    | none => rw [hd] at h3; cases h3
    | some lastdot =>
      rw [hd] at h3
      dsimp only at h3 ⊢
      by_cases hs : _stricmp lastdot e.PLATFORM_SHARED_LIB_SUFFIX_A = 0
      · left
        simp only [Bool.false_eq_true, if_false]
        rw [if_pos hs]; rfl
      · right
        rw [if_neg hs] at h3
        simp only [processMethodContext, failError] at h3
        split_ifs at h3 <;> cases h3 <;> rfl

theorem step_contextFile {e : Env} {prog : CStr} {st st1 : State} {tok : CStr}
    {rest : List CStr} {k : Nat} (h : step e prog st tok rest = Step.next st1 k) :
    (contextArg e tok rest).isSome = true ∨
      st1.o.nameOfInputMethodContextFile = st.o.nameOfInputMethodContextFile := by
  rcases step_next_elim h with ⟨h1, h2, h3⟩ | ⟨h1, h3⟩
  · rcases execSwitch_contextFile h3 with ⟨hsw, hr⟩ | hsame
    · left
      unfold contextArg
      rw [if_pos h1, selects_of_switch h1 h2, hsw, if_pos rfl]
      cases rest with
      | nil => exact absurd rfl hr
      | cons v r => rfl
    · exact Or.inr hsame
  · unfold contextArg
    rw [h1]
    unfold positional at h3
    cases hd : strrchr tok '.' with
    | none => rw [hd] at h3; cases h3
    | some lastdot =>
      rw [hd] at h3
      dsimp only at h3 ⊢
      by_cases hs : _stricmp lastdot e.PLATFORM_SHARED_LIB_SUFFIX_A = 0
      · right
        rw [if_pos hs] at h3
        simp only [processJit, failError] at h3
        split_ifs at h3 <;> cases h3 <;> rfl
      · rw [if_neg hs] at h3
        by_cases hm : _stricmp lastdot ".mc".toList = 0 ∨ _stricmp lastdot ".mch".toList = 0
            ∨ _stricmp lastdot ".mct".toList = 0
        · left
          simp only [Bool.false_eq_true, if_false]
          rw [if_neg hs, if_pos hm]; rfl
        · rw [not_or, not_or] at hm
          rw [if_neg hm.1, if_neg hm.2.1, if_neg hm.2.2] at h3
          cases h3

/-- A field that only certain passes write: if it is set after a scan that ran to
the end, it was set before or one of the loop heads is such a pass. -/
theorem loop_set_by_head {e : Env} {prog : CStr} {stf : State} (g : State → Option CStr)
    (f : CStr → List CStr → Option CStr)
    (hstep : ∀ st tok rest st1 k, step e prog st tok rest = Step.next st1 k →
      (f tok rest).isSome = true ∨ g st1 = g st) :
    ∀ (toks : List CStr) (used : Nat) (st : State),
      loop e prog used st toks = Scan.done stf → g stf ≠ none →
      g st ≠ none ∨ overHeads f (heads e prog used st toks) ≠ []
  | [], used, st, h, hg => by
    rw [loop_nil] at h; cases h; exact Or.inl hg
  | _ :: rest, used + 1, st, h, hg => loop_set_by_head g f hstep rest used st h hg
  | tok :: rest, 0, st, h, hg => by
    rw [loop_zero_cons] at h
    rw [heads_zero_cons]
    cases hs : step e prog st tok rest with
    | ret st1 => rw [hs] at h; cases h
    | next st1 k =>
      rw [hs] at h
      dsimp only
      rcases hstep _ _ _ _ _ hs with hf | hsame
      · right
        obtain ⟨a, ha⟩ := Option.isSome_iff_exists.1 hf
        simp [overHeads, List.filterMap_cons, ha]
      · rcases loop_set_by_head g f hstep rest k st1 h hg with h1 | h1
        · left; rwa [hsame] at h1
        · right
          unfold overHeads at h1 ⊢
          rw [List.filterMap_cons]
          dsimp only
          cases f tok rest with
          | none => exact h1
          | some a => simp


/-! ## C1: a compiler path and a context file are required -/

/-- C1. Parsing into the default record: if the scan processes no token as a compiler
path (neither the value of a `-jit` switch nor a positional token with the
shared-library suffix), or processes no token as a context file (neither the value
of a `-load` switch nor a positional `.mc`/`.mch`/`.mct` token), `Parse` returns
false; and whenever `Parse` returns true, `nameOfJit` and
`nameOfInputMethodContextFile` are both set. -/
theorem Parse_requires_compiler_and_context (e : Env) (argv : List CStr) :
    (compilerPaths e argv Options.default = [] ∨ contextFiles e argv Options.default = [] →
        (Parse e argv Options.default).1 = false) ∧
      ((Parse e argv Options.default).1 = true →
        (Parse e argv Options.default).2.o.nameOfJit ≠ none ∧
          (Parse e argv Options.default).2.o.nameOfInputMethodContextFile ≠ none) := by
  constructor
  · intro hno
    by_contra hret
    obtain ⟨stf, -, hloop, hval, -⟩ := Parse_true (Bool.not_eq_false _ ▸ hret)
    obtain ⟨-, hjit, hfile, -⟩ := validate_true hval
    rcases hno with hno | hno
    · rcases loop_set_by_head (fun st => st.o.nameOfJit) (jitArg e)
          (fun _ _ _ _ _ => step_nameOfJit) _ _ _ hloop hjit with h | h
      · exact h rfl
      · exact h hno
    · rcases loop_set_by_head (fun st => st.o.nameOfInputMethodContextFile) (contextArg e)
          (fun _ _ _ _ _ => step_contextFile) _ _ _ hloop hfile with h | h
      · exact h rfl
      · exact h hno
  · intro hret
    obtain ⟨stf, -, -, hval, hP⟩ := Parse_true hret
    obtain ⟨-, hjit, hfile, -⟩ := validate_true hval
    rw [hP]
    exact ⟨hjit, hfile⟩

/-- C1 at `prog -load m.mch -applyDiff`: no compiler path, so `Parse` returns false. -/
theorem Parse_requires_compiler_and_context_witness :
    compilerPaths linux (cmd ["prog", "-load", "m.mch", "-applyDiff"]) Options.default = [] ∧
      (Parse linux (cmd ["prog", "-load", "m.mch", "-applyDiff"]) Options.default).1 = false :=
  ⟨by decide,
    (Parse_requires_compiler_and_context linux
      (cmd ["prog", "-load", "m.mch", "-applyDiff"])).1 (Or.inl (by decide))⟩

/-! ## The selection modes -/

/-- What a successful pass over a switch does to the selection fields. -/
theorem execSwitch_selection {e : Env} {prog : CStr} {st st1 : State} {rest : List CStr}
    {sw : Switch} {k : Nat} (h : execSwitch e prog rest st sw = Step.next st1 k) :
    (sw.isSelection = false ∧ st1.o.indexCount = st.o.indexCount ∧ st1.o.hash = st.o.hash ∧
        st1.o.offset = st.o.offset ∧ st1.o.increment = st.o.increment) ∨
      (sw = Switch.compile ∧ st.o.hash = none ∧ ¬ (st.o.offset > 0 ∧ st.o.increment > 0) ∧
        st1.o.hash = st.o.hash ∧ st1.o.offset = st.o.offset ∧
        st1.o.increment = st.o.increment ∧
        ∃ v, (e.processArgAsMCL v st.o.indexCount st.o.indexes).1 = true ∧
          st1.o.indexCount = (e.processArgAsMCL v st.o.indexCount st.o.indexes).2.1) ∨
      (sw = Switch.matchHash ∧ st1.o.hash ≠ none ∧ ¬ (st.o.indexCount > 0) ∧
        ¬ (st.o.offset > 0 ∧ st.o.increment > 0) ∧ st1.o.indexCount = st.o.indexCount ∧
        st1.o.offset = st.o.offset ∧ st1.o.increment = st.o.increment) ∨
      (sw = Switch.stride ∧ st.o.hash = none ∧ ¬ (st.o.indexCount > 0) ∧
        st1.o.offset > 0 ∧ st1.o.increment > 0 ∧ st1.o.indexCount = st.o.indexCount ∧
        st1.o.hash = st.o.hash) := by
  cases sw <;> rcases rest with _ | ⟨v, _ | ⟨w, r⟩⟩ <;>
    simp only [execSwitch, withValue, List.tail, failHelp, failError, processMethodContext,
      processJit] at h <;>
    (try split_ifs at h) <;> cases h <;>
    first
      | exact Or.inl ⟨rfl, rfl, rfl, rfl, rfl⟩
      | (refine Or.inr (Or.inl ⟨rfl, ?_, ?_, rfl, rfl, rfl, v, ?_, rfl⟩) <;> simp_all)
      | (refine Or.inr (Or.inr (Or.inl ⟨rfl, ?_, ?_, ?_, rfl, rfl, rfl⟩)) <;> simp_all)
      | (refine Or.inr (Or.inr (Or.inr ⟨rfl, ?_, ?_, ?_, ?_, rfl, rfl⟩)) <;> simp_all <;> omega)

theorem positional_selection {e : Env} {prog tok : CStr} {st st1 : State} {k : Nat}
    (h : positional e prog tok st = Step.next st1 k) :
    st1.o.indexCount = st.o.indexCount ∧ st1.o.hash = st.o.hash ∧
      st1.o.offset = st.o.offset ∧ st1.o.increment = st.o.increment := by
  unfold positional at h
  split at h
  · cases h
  · simp only [processJit, processMethodContext, failError] at h
    split_ifs at h <;> cases h <;> exact ⟨rfl, rfl, rfl, rfl⟩

theorem exclusive_iff (o : Options) :
    o.exclusive = true ↔
      ¬ (o.indexCount > 0 ∧ o.hash ≠ none) ∧
        ¬ (o.indexCount > 0 ∧ o.offset > 0 ∧ o.increment > 0) ∧
        ¬ (o.hash ≠ none ∧ o.offset > 0 ∧ o.increment > 0) := by
  cases hh : o.hash <;>
    simp [Options.exclusive, Options.listMode, Options.hashMode, Options.strideMode, hh] <;>
    omega

/-- A successful pass keeps the selection modes exclusive. -/
theorem step_exclusive {e : Env} {prog : CStr} {st st1 : State} {tok : CStr}
    {rest : List CStr} {k : Nat} (h : step e prog st tok rest = Step.next st1 k)
    (hs : st.o.exclusive = true) : st1.o.exclusive = true := by
  rw [exclusive_iff] at hs ⊢
  rcases step_next_elim h with ⟨-, -, h3⟩ | ⟨-, h3⟩
  · rcases execSwitch_selection h3 with ⟨-, h1, h2, h3, h4⟩ | ⟨-, h0, hn, h1, h2, h3, -⟩ |
        ⟨-, h1, h2, h3, h4, h5, h6⟩ | ⟨-, h1, h2, h3, h4, h5, h6⟩
    · rw [h1, h2, h3, h4]; exact hs
    · rw [h1, h2, h3, h0]; tauto
    · rw [h4, h5, h6]; tauto
    · rw [h5, h6, h1]; tauto
  · obtain ⟨h1, h2, h3, h4⟩ := positional_selection h3
    rw [h1, h2, h3, h4]; exact hs

/-- C3. Parsing into the default record, whatever the list resolver does: if `Parse`
returns true, at most one of the three selection modes is on in the resulting
record (`indexCount > 0`; `hash` set; `offset > 0` and `increment > 0`). -/
theorem selection_modes_exclusive (e : Env) (argv : List CStr)
    (h : (Parse e argv Options.default).1 = true) :
    ((Parse e argv Options.default).2.o.listMode &&
        (Parse e argv Options.default).2.o.hashMode) = false ∧
      ((Parse e argv Options.default).2.o.listMode &&
        (Parse e argv Options.default).2.o.strideMode) = false ∧
      ((Parse e argv Options.default).2.o.hashMode &&
        (Parse e argv Options.default).2.o.strideMode) = false := by
  obtain ⟨stf, -, hloop, -, hP⟩ := Parse_true h
  have hex : stf.o.exclusive = true :=
    loop_done_inv (fun st => st.o.exclusive = true)
      (fun _ _ _ _ _ hP hs => step_exclusive hs hP) _ _ _ _ (by decide) hloop
  rw [hP]
  revert hex
  unfold Options.exclusive
  cases stf.o.listMode <;> cases stf.o.hashMode <;> cases stf.o.strideMode <;> decide


/-- C3 at `prog a.so m.mch -compile 7`: the parse succeeds with only the list mode on. -/
theorem selection_modes_exclusive_witness :
    (Parse linux (cmd ["prog", "a.so", "m.mch", "-compile", "7"]) Options.default).1 = true ∧
      (Parse linux (cmd ["prog", "a.so", "m.mch", "-compile", "7"])
        Options.default).2.o.listMode = true ∧
      ((Parse linux (cmd ["prog", "a.so", "m.mch", "-compile", "7"])
          Options.default).2.o.listMode &&
        (Parse linux (cmd ["prog", "a.so", "m.mch", "-compile", "7"])
          Options.default).2.o.hashMode) = false :=
  ⟨by decide, by decide,
    (selection_modes_exclusive linux (cmd ["prog", "a.so", "m.mch", "-compile", "7"])
      (by decide)).1⟩

/-! ## Appending tokens to an accepted command line -/

theorem execSwitch_used_le {e : Env} {prog : CStr} {rest : List CStr} {st st1 : State}
    {sw : Switch} {k : Nat} (h : execSwitch e prog rest st sw = Step.next st1 k) :
    k ≤ rest.length := by
  cases sw <;> rcases rest with _ | ⟨v, _ | ⟨w, r⟩⟩ <;>
    simp only [execSwitch, withValue, List.tail, failHelp, failError, processMethodContext,
      processJit] at h <;>
    (try split_ifs at h) <;> cases h <;> simp

theorem positional_used {e : Env} {prog tok : CStr} {st st1 : State} {k : Nat}
    (h : positional e prog tok st = Step.next st1 k) : k = 0 := by
  unfold positional at h
  split at h
  · cases h
  · simp only [processJit, processMethodContext, failError] at h
    split_ifs at h <;> cases h <;> rfl

/-- A pass never advances `i` beyond the last token. -/
theorem step_used_le {e : Env} {prog : CStr} {st st1 : State} {tok : CStr}
    {rest : List CStr} {k : Nat} (h : step e prog st tok rest = Step.next st1 k) :
    k ≤ rest.length := by
  rcases step_next_elim h with ⟨-, -, h3⟩ | ⟨-, h3⟩
  · exact execSwitch_used_le h3
  · rw [positional_used h3]; exact Nat.zero_le _

theorem execSwitch_append {e : Env} {prog : CStr} {rest extra : List CStr} {st st1 : State}
    {sw : Switch} {k : Nat} (hx : ∀ x, extra.head? = some x → x.all isdigit = false)
    (h : execSwitch e prog rest st sw = Step.next st1 k) :
    execSwitch e prog (rest ++ extra) st sw = Step.next st1 k := by
  cases sw <;> rcases rest with _ | ⟨v, _ | ⟨w, r⟩⟩ <;>
    simp only [execSwitch, withValue, List.tail, failHelp, failError, processMethodContext,
      processJit, List.nil_append, List.cons_append] at h ⊢ <;>
    first
      | exact h
      | (cases h; done)
      | (rcases extra with _ | ⟨x, xs⟩
         · exact h
         · dsimp only
           rw [if_neg (by simpa using hx x rfl)]
           exact h)

/-- A successful pass is not affected by tokens appended to the command line,
provided the first of them is not a string of digits. -/
theorem step_append {e : Env} {prog : CStr} {st st1 : State} {tok : CStr}
    {rest extra : List CStr} {k : Nat}
    (hx : ∀ x, extra.head? = some x → x.all isdigit = false)
    (h : step e prog st tok rest = Step.next st1 k) :
    step e prog st tok (rest ++ extra) = Step.next st1 k := by
  rcases step_next_elim h with ⟨h1, h2, h3⟩ | ⟨h1, h3⟩
  · unfold step
    rw [if_pos h1, if_pos h2]
    exact execSwitch_append hx h3
  · unfold step
    rw [h1]
    exact h3

/-- A scan that ran to the end continues, on an extended command line, with the
appended tokens in the state it had reached. -/
theorem loop_append {e : Env} {prog : CStr} {extra : List CStr} {stf : State}
    (hx : ∀ x, extra.head? = some x → x.all isdigit = false) :
    ∀ (toks : List CStr) (used : Nat) (st : State), used ≤ toks.length →
      loop e prog used st toks = Scan.done stf →
      loop e prog used st (toks ++ extra) = loop e prog 0 stf extra
  | [], used, st, hu, h => by
    rw [loop_nil] at h; cases h
    have : used = 0 := by simpa using hu
    rw [this]; rfl
  | _ :: rest, used + 1, st, hu, h =>
    loop_append hx rest used st (by simpa using hu) h
  | tok :: rest, 0, st, _, h => by
    rw [loop_zero_cons] at h
    cases hs : step e prog st tok rest with
    | ret st1 => rw [hs] at h; cases h
    | next st1 k =>
      rw [hs] at h
      rw [List.cons_append, loop_of_next (step_append hx hs)]
      exact loop_append hx rest k st1 (step_used_le hs) h

theorem Parse_cons_append {e : Env} {prog : CStr} {args extra : List CStr} {o : Options}
    {stf : State} (hx : ∀ x, extra.head? = some x → x.all isdigit = false)
    (hne : args ≠ [])
    (h : loop e prog 0 (State.init o) args = Scan.done stf) :
    Parse e (prog :: (args ++ extra)) o =
      match loop e prog 0 stf extra with
      | Scan.ret st => (false, st)
      | Scan.done st => validate prog st := by
  unfold Parse
  have hlen : (prog :: (args ++ extra)).length ≠ 1 := by
    cases args with
    | nil => exact absurd rfl hne
    | cons a as => simp
  rw [if_neg hlen]
  show (match loop e prog 0 (State.init o) (args ++ extra) with
    | Scan.ret st => (false, st)
    | Scan.done st => validate prog st) = _
  rw [loop_append hx args 0 _ (Nat.zero_le _) h]


/-! ## A command line made of a compiler path and a context file -/

theorem execSwitch_names {e : Env} {prog : CStr} {rest : List CStr} {st st1 : State}
    {sw : Switch} {k : Nat} (h : execSwitch e prog rest st sw = Step.next st1 k) :
    st1.o.namesSet ≤ st.o.namesSet + 1 ∧
      (st1.o.namesSet = st.o.namesSet + 1 → st1.o.clearNames = st.o.clearNames) := by
  cases sw <;> rcases rest with _ | ⟨v, _ | ⟨w, r⟩⟩ <;>
    simp only [execSwitch, withValue, List.tail, failHelp, failError, processMethodContext,
      processJit] at h <;>
    (try split_ifs at h) <;> cases h <;>
    first
      | exact ⟨Nat.le_succ _, fun h => absurd h (Nat.ne_of_lt (Nat.lt_succ_self _))⟩
      | (refine ⟨?_, fun _ => rfl⟩
         simp only [Options.namesSet, Option.isSome_some, if_true]
         split_ifs <;> omega)

theorem positional_names {e : Env} {prog tok : CStr} {st st1 : State} {k : Nat}
    (h : positional e prog tok st = Step.next st1 k) :
    st1.o.namesSet ≤ st.o.namesSet + 1 ∧
      (st1.o.namesSet = st.o.namesSet + 1 → st1.o.clearNames = st.o.clearNames) := by
  unfold positional at h
  split at h
  · cases h
  · simp only [processJit, processMethodContext, failError] at h
    split_ifs at h <;> cases h <;>
      (refine ⟨?_, fun _ => rfl⟩
       simp only [Options.namesSet, Option.isSome_some, if_true]
       split_ifs <;> omega)

/-- A successful pass sets at most one more of the two required names, and one that
does so changes no option field. -/
theorem step_names {e : Env} {prog : CStr} {st st1 : State} {tok : CStr}
    {rest : List CStr} {k : Nat} (h : step e prog st tok rest = Step.next st1 k) :
    st1.o.namesSet ≤ st.o.namesSet + 1 ∧
      (st1.o.namesSet = st.o.namesSet + 1 → st1.o.clearNames = st.o.clearNames) := by
  rcases step_next_elim h with ⟨-, -, h3⟩ | ⟨-, h3⟩
  · exact execSwitch_names h3
  · exact positional_names h3

theorem namesSet_eq_two {o : Options} (h1 : o.nameOfJit ≠ none)
    (h2 : o.nameOfInputMethodContextFile ≠ none) : o.namesSet = 2 := by
  unfold Options.namesSet
  rw [if_pos (Option.isSome_iff_ne_none.2 h1), if_pos (Option.isSome_iff_ne_none.2 h2)]

/-- If `Parse` accepts `prog J F`, the scan over `J F` runs to the end, in a state
that passes the validation and has every option field at its default. -/
theorem accepted_pair {e : Env} {prog J F : CStr}
    (h : (Parse e [prog, J, F] Options.default).1 = true) :
    ∃ stf, loop e prog 0 (State.init Options.default) [J, F] = Scan.done stf ∧
      (validate prog stf).1 = true ∧ stf.o.clearNames = Options.default := by
  obtain ⟨stf, -, hloop, hval, -⟩ := Parse_true h
  refine ⟨stf, hloop, hval, ?_⟩
  obtain ⟨-, hjit, hfile, -⟩ := validate_true hval
  have h2 := namesSet_eq_two hjit hfile
  change loop e prog 0 (State.init Options.default) [J, F] = Scan.done stf at hloop
  rw [loop_zero_cons] at hloop
  cases hJ : step e prog (State.init Options.default) J [F] with
  | ret st1 => rw [hJ] at hloop; cases hloop
  | next st1 k1 =>
    rw [hJ] at hloop
    obtain ⟨hle1, heq1⟩ := step_names hJ
    have h0 : (State.init Options.default).o.namesSet = 0 := rfl
    cases k1 with
    | succ k =>
      change loop e prog k st1 [] = Scan.done stf at hloop
      rw [loop_nil] at hloop
      cases hloop
      omega
    | zero =>
      dsimp only at hloop
      rw [loop_zero_cons] at hloop
      cases hF : step e prog st1 F [] with
      | ret st2 => rw [hF] at hloop; cases hloop
      | next st2 k2 =>
        rw [hF] at hloop
        dsimp only at hloop
        rw [loop_nil] at hloop
        cases hloop
        obtain ⟨hle2, heq2⟩ := step_names hF
        rw [heq2 (by omega), heq1 (by omega)]
        rfl


/-! ## C4: `-diffMCList` needs `-applyDiff` -/

/-- C4. For every compiler path `J` and context file `F` such that `Parse` accepts
`prog J F`: `prog J F -diffMCList out.txt` is rejected, and it is accepted with
`-applyDiff` added before or after the pair `-diffMCList out.txt`. In general,
whenever `Parse` returns true and `diffMCLFilename` is set, `applyDiff` is true. -/
theorem diffMCList_requires_applyDiff (e : Env) (prog J F : CStr)
    (hJF : (Parse e [prog, J, F] Options.default).1 = true) :
    (Parse e [prog, J, F, "-diffMCList".toList, "out.txt".toList] Options.default).1 = false ∧
      (Parse e [prog, J, F, "-applyDiff".toList, "-diffMCList".toList, "out.txt".toList]
        Options.default).1 = true ∧
      (Parse e [prog, J, F, "-diffMCList".toList, "out.txt".toList, "-applyDiff".toList]
        Options.default).1 = true ∧
      ∀ (argv : List CStr) (o : Options), (Parse e argv o).1 = true →
        (Parse e argv o).2.o.diffMCLFilename ≠ none →
        (Parse e argv o).2.o.applyDiff = true := by
  obtain ⟨stf, hloop, hval, hclear⟩ := accepted_pair hJF
  obtain ⟨-, hjit, hfile, -, htarget, hskip⟩ := validate_true hval
  have hA : stf.o.applyDiff = false := congrArg Options.applyDiff hclear
  have hT : stf.o.targetArchitecture = none := congrArg Options.targetArchitecture hclear
  have hS : stf.o.skipCleanup = false := congrArg Options.skipCleanup hclear
  refine ⟨?_, ?_, ?_, ?_⟩
  · rw [show [prog, J, F, "-diffMCList".toList, "out.txt".toList]
        = prog :: ([J, F] ++ ["-diffMCList".toList, "out.txt".toList]) from rfl,
      Parse_cons_append (by intro x hx; cases hx; rfl) (by simp) hloop]
    rw [show loop e prog 0 stf ["-diffMCList".toList, "out.txt".toList] = Scan.done
        { stf with o := { stf.o with diffMCLFilename := some "out.txt".toList } } from rfl]
    by_contra hret
    obtain ⟨-, -, -, hd, -⟩ := validate_true (Bool.not_eq_false _ ▸ hret)
    have := hd (by simp)
    rw [show ({ stf with o := { stf.o with diffMCLFilename := some "out.txt".toList } } :
      State).o.applyDiff = stf.o.applyDiff from rfl, hA] at this
    cases this
  · rw [show [prog, J, F, "-applyDiff".toList, "-diffMCList".toList, "out.txt".toList]
        = prog :: ([J, F] ++ ["-applyDiff".toList, "-diffMCList".toList, "out.txt".toList])
        from rfl,
      Parse_cons_append (by intro x hx; cases hx; rfl) (by simp) hloop]
    rw [show loop e prog 0 stf ["-applyDiff".toList, "-diffMCList".toList, "out.txt".toList]
        = Scan.done { stf with o := { stf.o with
            applyDiff := true, diffMCLFilename := some "out.txt".toList } } from rfl]
    exact congrArg Prod.fst (validate_of prog
      { stf with o := { stf.o with
        applyDiff := true, diffMCLFilename := some "out.txt".toList } }
      hjit hfile (fun _ => rfl) (fun t ht => absurd (hT ▸ ht) (by simp))
      (fun h => absurd (hS ▸ h) (by simp)))
  · rw [show [prog, J, F, "-diffMCList".toList, "out.txt".toList, "-applyDiff".toList]
        = prog :: ([J, F] ++ ["-diffMCList".toList, "out.txt".toList, "-applyDiff".toList])
        from rfl,
      Parse_cons_append (by intro x hx; cases hx; rfl) (by simp) hloop]
    rw [show loop e prog 0 stf ["-diffMCList".toList, "out.txt".toList, "-applyDiff".toList]
        = Scan.done { stf with o := { stf.o with
            applyDiff := true, diffMCLFilename := some "out.txt".toList } } from rfl]
    exact congrArg Prod.fst (validate_of prog
      { stf with o := { stf.o with
        applyDiff := true, diffMCLFilename := some "out.txt".toList } }
      hjit hfile (fun _ => rfl) (fun t ht => absurd (hT ▸ ht) (by simp))
      (fun h => absurd (hS ▸ h) (by simp)))
  · intro argv o h hd
    obtain ⟨st, -, -, hv, hP⟩ := Parse_true h
    rw [hP] at hd ⊢
    exact (validate_true hv).2.2.2.1 hd

/-- C4 at `J = a.so`, `F = m.mch` in the Linux build. -/
theorem diffMCList_requires_applyDiff_witness :
    (Parse linux (cmd ["prog", "a.so", "m.mch"]) Options.default).1 = true ∧
      (Parse linux (cmd ["prog", "a.so", "m.mch", "-diffMCList", "out.txt"])
        Options.default).1 = false :=
  ⟨by decide,
    (diffMCList_requires_applyDiff linux "prog".toList "a.so".toList "m.mch".toList
      (by decide)).1⟩

/-! ## Comparing strings ignoring case -/

theorem _stricmp_eq_zero_iff : ∀ (s t : CStr), _stricmp s t = 0 ↔ s.map tolower = t.map tolower
  | [], [] => by simp [_stricmp]
  | [], _ :: _ => by simp [_stricmp]
  | _ :: _, [] => by simp [_stricmp]
  | a :: s, b :: t => by
    unfold _stricmp
    by_cases h : tolower a = tolower b
    · rw [if_pos h, _stricmp_eq_zero_iff s t]; simp [h]
    · rw [if_neg h]
      split_ifs <;> simp [h]

/-! ## C5: the target architecture -/

/-- C5, as the code has it. For every argument vector that `Parse` accepts (from the
default record) and every value `v`: with `-target v` appended, `Parse` returns true
exactly when `v` is `arm64` up to letter case. In general, whenever `Parse` returns
true with `targetArchitecture` set, its value is `arm64` up to letter case. -/
theorem target_must_be_arm64 (e : Env) (argv : List CStr) (v : CStr)
    (h : (Parse e argv Options.default).1 = true) :
    ((Parse e (argv ++ ["-target".toList, v]) Options.default).1 = true ↔
        v.map tolower = "arm64".toList) ∧
      ∀ (argv' : List CStr) (o : Options) (t : CStr), (Parse e argv' o).1 = true →
        (Parse e argv' o).2.o.targetArchitecture = some t →
        t.map tolower = "arm64".toList := by
  have harm : ("arm64".toList).map tolower = "arm64".toList := by decide
  constructor
  · obtain ⟨stf, hlen, hloop, hval, -⟩ := Parse_true h
    obtain ⟨-, hjit, hfile, hdiff, -, hskip⟩ := validate_true hval
    rcases argv with _ | ⟨prog, args⟩
    · rw [show loop e (([] : List CStr).headD []) 0 (State.init Options.default)
        ([] : List CStr).tail = Scan.done (State.init Options.default) from rfl] at hloop
      cases hloop
      exact absurd rfl hjit
    · have hne : args ≠ [] := by
        rintro rfl
        exact hlen rfl
      change loop e prog 0 (State.init Options.default) args = Scan.done stf at hloop
      rw [List.cons_append, Parse_cons_append (by intro x hx; cases hx; rfl) hne hloop]
      rw [show loop e prog 0 stf ["-target".toList, v] = Scan.done
        { stf with o := { stf.o with targetArchitecture := some v } } from rfl]
      rw [← harm, ← _stricmp_eq_zero_iff]
      constructor
      · intro hv
        exact (validate_true hv).2.2.2.2.1 v rfl
      · intro hv
        exact congrArg Prod.fst (validate_of prog
          { stf with o := { stf.o with targetArchitecture := some v } }
          hjit hfile hdiff (fun t ht => by cases ht; exact hv) hskip)
  · intro argv' o t h' ht
    obtain ⟨st, -, -, hv, hP⟩ := Parse_true h'
    rw [hP] at ht
    rw [← harm, ← _stricmp_eq_zero_iff]
    exact (validate_true hv).2.2.2.2.1 t ht

/-- C5 at `prog a.so m.mch` and `v = Arm64` in the Linux build. -/
theorem target_must_be_arm64_witness :
    (Parse linux (cmd ["prog", "a.so", "m.mch"]) Options.default).1 = true ∧
      (Parse linux (cmd ["prog", "a.so", "m.mch"] ++ ["-target".toList, "Arm64".toList])
        Options.default).1 = true :=
  ⟨by decide,
    ((target_must_be_arm64 linux (cmd ["prog", "a.so", "m.mch"]) "Arm64".toList
      (by decide)).1).2 (by decide)⟩

/-- C5 as stated fails: in the Linux build `prog a.so m.mch -target ARM64` is accepted,
and `targetArchitecture` is then `ARM64`, not `arm64`. -/
theorem target_other_than_arm64_accepted :
    (Parse linux (cmd ["prog", "a.so", "m.mch"]) Options.default).1 = true ∧
      "ARM64".toList ≠ "arm64".toList ∧
      (Parse linux (cmd ["prog", "a.so", "m.mch", "-target", "ARM64"])
        Options.default).1 = true ∧
      (Parse linux (cmd ["prog", "a.so", "m.mch", "-target", "ARM64"])
        Options.default).2.o.targetArchitecture = some "ARM64".toList := by
  decide


/-! ## C6: `-skipCleanup` needs `-parallel` -/

theorem loop_skipCleanup (e : Env) (prog : CStr) (st : State) :
    loop e prog 0 st ["-skipCleanup".toList] =
      Scan.done { st with o := { st.o with skipCleanup := true } } := by
  obtain ⟨pal, suffix, maxWait, md5, cdt, resolver, atoi⟩ := e
  cases cdt <;> rfl

theorem loop_skipCleanup_parallel (e : Env) (prog : CStr) (st : State) :
    loop e prog 0 st ["-skipCleanup".toList, "-parallel".toList] =
      Scan.done { st with o := { st.o with skipCleanup := true, parallel := true } } := by
  obtain ⟨pal, suffix, maxWait, md5, cdt, resolver, atoi⟩ := e
  cases cdt <;> rfl

theorem loop_parallel_skipCleanup (e : Env) (prog : CStr) (st : State) :
    loop e prog 0 st ["-parallel".toList, "-skipCleanup".toList] =
      Scan.done { st with o := { st.o with skipCleanup := true, parallel := true } } := by
  obtain ⟨pal, suffix, maxWait, md5, cdt, resolver, atoi⟩ := e
  cases cdt <;> rfl

/-- C6. For every compiler path `J` and context file `F` such that `Parse` accepts
`prog J F`: `prog J F -skipCleanup` is rejected, and both `prog J F -skipCleanup
-parallel` and `prog J F -parallel -skipCleanup` are accepted, with `skipCleanup` and
`parallel` true in the resulting record. In general, whenever `Parse` returns true
and `skipCleanup` is true, `parallel` is true. -/
theorem skipCleanup_requires_parallel (e : Env) (prog J F : CStr)
    (hJF : (Parse e [prog, J, F] Options.default).1 = true) :
    (Parse e [prog, J, F, "-skipCleanup".toList] Options.default).1 = false ∧
      ((Parse e [prog, J, F, "-skipCleanup".toList, "-parallel".toList]
          Options.default).1 = true ∧
        (Parse e [prog, J, F, "-skipCleanup".toList, "-parallel".toList]
          Options.default).2.o.skipCleanup = true ∧
        (Parse e [prog, J, F, "-skipCleanup".toList, "-parallel".toList]
          Options.default).2.o.parallel = true) ∧
      ((Parse e [prog, J, F, "-parallel".toList, "-skipCleanup".toList]
          Options.default).1 = true ∧
        (Parse e [prog, J, F, "-parallel".toList, "-skipCleanup".toList]
          Options.default).2.o.skipCleanup = true ∧
        (Parse e [prog, J, F, "-parallel".toList, "-skipCleanup".toList]
          Options.default).2.o.parallel = true) ∧
      ∀ (argv : List CStr) (o : Options), (Parse e argv o).1 = true →
        (Parse e argv o).2.o.skipCleanup = true → (Parse e argv o).2.o.parallel = true := by
  obtain ⟨stf, hloop, hval, hclear⟩ := accepted_pair hJF
  obtain ⟨-, hjit, hfile, hdiff, htarget, -⟩ := validate_true hval
  have hP : stf.o.parallel = false := congrArg Options.parallel hclear
  have hboth : validate prog
      { stf with o := { stf.o with skipCleanup := true, parallel := true } } =
      (true, { stf with o := { stf.o with skipCleanup := true, parallel := true } }) :=
    validate_of prog
      { stf with o := { stf.o with skipCleanup := true, parallel := true } }
      hjit hfile hdiff htarget (fun _ => rfl)
  refine ⟨?_, ?_, ?_, ?_⟩
  · rw [show [prog, J, F, "-skipCleanup".toList] = prog :: ([J, F] ++ ["-skipCleanup".toList])
        from rfl,
      Parse_cons_append (by intro x hx; cases hx; rfl) (by simp) hloop, loop_skipCleanup]
    by_contra hret
    obtain ⟨-, -, -, -, -, hs⟩ := validate_true (Bool.not_eq_false _ ▸ hret)
    have := hs rfl
    rw [show ({ stf with o := { stf.o with skipCleanup := true } } : State).o.parallel
      = stf.o.parallel from rfl, hP] at this
    cases this
  · rw [show [prog, J, F, "-skipCleanup".toList, "-parallel".toList]
        = prog :: ([J, F] ++ ["-skipCleanup".toList, "-parallel".toList]) from rfl,
      Parse_cons_append (by intro x hx; cases hx; rfl) (by simp) hloop,
      loop_skipCleanup_parallel]
    dsimp only
    rw [hboth]
    exact ⟨rfl, rfl, rfl⟩
  · rw [show [prog, J, F, "-parallel".toList, "-skipCleanup".toList]
        = prog :: ([J, F] ++ ["-parallel".toList, "-skipCleanup".toList]) from rfl,
      Parse_cons_append (by intro x hx; cases hx; rfl) (by simp) hloop,
      loop_parallel_skipCleanup]
    dsimp only
    rw [hboth]
    exact ⟨rfl, rfl, rfl⟩
  · intro argv o h hs
    obtain ⟨st, -, -, hv, hP⟩ := Parse_true h
    rw [hP] at hs ⊢
    exact (validate_true hv).2.2.2.2.2 hs

/-- C6 at `J = a.so`, `F = m.mch` in the Linux build. -/
theorem skipCleanup_requires_parallel_witness :
    (Parse linux (cmd ["prog", "a.so", "m.mch"]) Options.default).1 = true ∧
      (Parse linux (cmd ["prog", "a.so", "m.mch", "-skipCleanup"]) Options.default).1 = false :=
  ⟨by decide,
    (skipCleanup_requires_parallel linux "prog".toList "a.so".toList "m.mch".toList
      (by decide)).1⟩

/-! ## `atoi` on an LP64 host -/

theorem isdigit_bounds {c : Char} (h : isdigit c = true) : 48 ≤ c.toNat ∧ c.toNat ≤ 57 := by
  simpa [isdigit] using h

theorem strtolDigits_eq_foldl : ∀ (s : CStr) (acc : Nat), s.all isdigit = true →
    strtolDigits acc s = s.foldl (fun acc c => 10 * acc + (c.toNat - '0'.toNat)) acc
  | [], acc, _ => rfl
  | c :: s, acc, h => by
    rw [List.all_cons, Bool.and_eq_true] at h
    unfold strtolDigits
    rw [if_pos h.1, List.foldl_cons]
    exact strtolDigits_eq_foldl s _ h.2

theorem strtol10_digits {s : CStr} (hne : s ≠ []) (hdig : s.all isdigit = true)
    (hfit : decimalValue s < 2 ^ 63) : strtol10 s = (decimalValue s : Int) := by
  cases s with
  | nil => exact absurd rfl hne
  | cons c r =>
    have hall := hdig
    rw [List.all_cons, Bool.and_eq_true] at hdig
    obtain ⟨h1, h2⟩ := isdigit_bounds hdig.1
    have hsp : isspace c = false := by
      simp only [isspace, decide_eq_false_iff_not, not_or]
      constructor
      · rintro rfl
        simp at h1
      · simp; omega
    have hm : c ≠ '-' := by rintro rfl; simp at h1
    have hp : c ≠ '+' := by rintro rfl; simp at h1
    unfold strtol10
    rw [List.dropWhile_cons_of_neg (by simp [hsp])]
    have : ((decimalValue (c :: r) : Nat) : Int) < 2 ^ 63 := by exact_mod_cast hfit
    split
    · rename_i heq; cases heq; exact absurd rfl hm
    · rename_i heq; cases heq; exact absurd rfl hp
    · rw [strtolDigits_eq_foldl _ _ hall]
      change max (-(2 ^ 63)) (min (2 ^ 63 - 1) ((decimalValue (c :: r) : Nat) : Int)) = _
      omega

theorem atoiLP64_digits {s : CStr} (hne : s ≠ []) (hdig : s.all isdigit = true)
    (hfit : decimalValue s < 2 ^ 31) : atoiLP64 s = (decimalValue s : Int) := by
  unfold atoiLP64
  rw [strtol10_digits hne hdig (by omega)]
  have : ((decimalValue s : Nat) : Int) < 2 ^ 31 := by exact_mod_cast hfit
  omega

theorem linux_atoi_conforms : AtoiConforms linux := fun _ hne hdig hfit =>
  atoiLP64_digits hne hdig hfit


/-! ## C7: the worker count -/

theorem step_of_selects {e : Env} {prog : CStr} {st : State} {tok : CStr} {rest : List CStr}
    {sw : Switch} (h : selects e tok = some sw) :
    step e prog st tok rest = execSwitch e prog rest st sw := by
  unfold selects at h
  split_ifs at h with h1
  cases h
  unfold step
  rw [if_pos h1.1, if_pos h1.2]

theorem execSwitch_workerCount {e : Env} {prog : CStr} {rest : List CStr} {st st1 : State}
    {sw : Switch} {k : Nat} (h : execSwitch e prog rest st sw = Step.next st1 k) :
    st1.o.workerCount = st.o.workerCount ∨
      (1 ≤ st1.o.workerCount ∧ st1.o.workerCount ≤ e.MAXIMUM_WAIT_OBJECTS) := by
  cases sw <;> rcases rest with _ | ⟨v, _ | ⟨w, r⟩⟩ <;>
    simp only [execSwitch, withValue, List.tail, failHelp, failError, processMethodContext,
      processJit] at h <;>
    (try split_ifs at h) <;> cases h <;>
    first
      | exact Or.inl rfl
      | (right; dsimp only at *; omega)

theorem step_workerCount {e : Env} {prog : CStr} {st st1 : State} {tok : CStr}
    {rest : List CStr} {k : Nat} (h : step e prog st tok rest = Step.next st1 k) :
    st1.o.workerCount = st.o.workerCount ∨
      (1 ≤ st1.o.workerCount ∧ st1.o.workerCount ≤ e.MAXIMUM_WAIT_OBJECTS) := by
  rcases step_next_elim h with ⟨-, -, h3⟩ | ⟨-, h3⟩
  · exact execSwitch_workerCount h3
  · left
    unfold positional at h3
    split at h3
    · cases h3
    · simp only [processJit, processMethodContext, failError] at h3
      split_ifs at h3 <;> cases h3 <;> rfl

/-- The pass over `-parallel` followed by a string of digits. -/
theorem execSwitch_parallel_digits (e : Env) (prog : CStr) (st : State) (N : CStr)
    (rest : List CStr) (hdig : N.all isdigit = true) :
    execSwitch e prog (N :: rest) st Switch.parallel =
      if e.atoi N < 1 then
        failError prog "Invalid workers count specified, workers count must be at least 1."
          { st with o := { st.o with parallel := true, workerCount := e.atoi N } }
      else if e.atoi N > e.MAXIMUM_WAIT_OBJECTS then
        failError prog
          "Invalid workers count specified, workers count cannot be more than %d."
          { st with o := { st.o with parallel := true, workerCount := e.atoi N } }
      else
        Step.next { st with o := { st.o with parallel := true, workerCount := e.atoi N } } 1 := by
  simp only [execSwitch]
  rw [if_pos hdig]

/-- C7, as the code has it. Let the scan (from the default record) classify a token
that selects `-parallel`, followed by a non-empty string `N` of decimal digits.
If `atoi` is as the C standard requires and the number `N` denotes is representable
as an `int` (below `2^31`), then: if the number is 0 or above
`MAXIMUM_WAIT_OBJECTS`, `Parse` returns false; if it lies in
`[1, MAXIMUM_WAIT_OBJECTS]`, the pass consumes `N`, sets `workerCount` to exactly that
number and parsing continues. And, whatever `N` and `atoi` are, whenever `Parse`
returns true, `1 <= workerCount <= MAXIMUM_WAIT_OBJECTS`. -/
theorem parallel_worker_count (e : Env) (argv : List CStr) (st : State) (tok N : CStr)
    (rest : List CStr) (hc : (st, tok :: N :: rest) ∈ parseHeads e argv Options.default)
    (hsel : selects e tok = some Switch.parallel) (hne : N ≠ [])
    (hdig : N.all isdigit = true) :
    (AtoiConforms e → decimalValue N < 2 ^ 31 →
        ((decimalValue N = 0 ∨ e.MAXIMUM_WAIT_OBJECTS < (decimalValue N : Int)) →
          (Parse e argv Options.default).1 = false) ∧
        ((1 ≤ decimalValue N ∧ (decimalValue N : Int) ≤ e.MAXIMUM_WAIT_OBJECTS) →
          step e (argv.headD []) st tok (N :: rest) =
            Step.next { st with o := { st.o with
              parallel := true, workerCount := (decimalValue N : Int) } } 1)) ∧
      ((Parse e argv Options.default).1 = true →
        1 ≤ (Parse e argv Options.default).2.o.workerCount ∧
          (Parse e argv Options.default).2.o.workerCount ≤ e.MAXIMUM_WAIT_OBJECTS) := by
  have hstep : step e (argv.headD []) st tok (N :: rest) =
      execSwitch e (argv.headD []) (N :: rest) st Switch.parallel := step_of_selects hsel
  rw [execSwitch_parallel_digits e _ st N rest hdig] at hstep
  refine ⟨fun hatoi hfit => ⟨?_, ?_⟩, ?_⟩
  · intro hbad
    by_contra hret
    obtain ⟨stf, -, hloop, -, -⟩ := Parse_true (Bool.not_eq_false _ ▸ hret)
    obtain ⟨tok', rest', st', k, heq, hs, -⟩ := heads_done _ _ _ hc hloop
    cases heq
    rw [hstep, hatoi N hne hdig hfit] at hs
    split_ifs at hs with h1 h2
    · cases hs
    · cases hs
    · omega
  · intro hgood
    rw [hstep, hatoi N hne hdig hfit, if_neg (by omega), if_neg (by omega)]
  · intro hret
    obtain ⟨stf, -, hloop, -, hP⟩ := Parse_true hret
    obtain ⟨tok', rest', st', k, heq, hs, hrest⟩ := heads_done _ _ _ hc hloop
    cases heq
    rw [hP]
    refine loop_done_inv
      (fun s => 1 ≤ s.o.workerCount ∧ s.o.workerCount ≤ e.MAXIMUM_WAIT_OBJECTS)
      (fun _ _ _ _ _ hP hs => ?_) _ _ _ _ ?_ hrest
    · rcases step_workerCount hs with h | h
      · rw [h]; exact hP
      · exact h
    · rw [hstep] at hs
      split_ifs at hs with h1 h2
      · cases hs
      · cases hs
      · cases hs
        exact ⟨by dsimp only; omega, by dsimp only; omega⟩

/-- C7 at `prog a.so m.mch -parallel 4` in the Linux build: the pass over `-parallel`
sets `workerCount` to 4. -/
theorem parallel_worker_count_witness :
    step linux "prog".toList (Parse linux (cmd ["prog", "a.so", "m.mch"]) Options.default).2
        "-parallel".toList ["4".toList] =
      Step.next { (Parse linux (cmd ["prog", "a.so", "m.mch"]) Options.default).2 with
        o := { (Parse linux (cmd ["prog", "a.so", "m.mch"]) Options.default).2.o with
          parallel := true, workerCount := (decimalValue "4".toList : Int) } } 1 :=
  ((parallel_worker_count linux (cmd ["prog", "a.so", "m.mch", "-parallel", "4"])
    (Parse linux (cmd ["prog", "a.so", "m.mch"]) Options.default).2
    "-parallel".toList "4".toList [] (by decide) (by decide) (by decide) (by decide)).1
      linux_atoi_conforms (by decide)).2 (by decide)

/-- C7 as stated fails: in the Linux build `prog -parallel 4294967297 a.so m.mch` is
accepted although 4294967297 is above `MAXIMUM_WAIT_OBJECTS = 64`; `atoi` hands back
1, which becomes the worker count. -/
theorem parallel_accepts_overflowing_count :
    (State.init Options.default, cmd ["-parallel", "4294967297", "a.so", "m.mch"]) ∈
        parseHeads linux (cmd ["prog", "-parallel", "4294967297", "a.so", "m.mch"])
          Options.default ∧
      selects linux "-parallel".toList = some Switch.parallel ∧
      "4294967297".toList.all isdigit = true ∧
      linux.MAXIMUM_WAIT_OBJECTS < (decimalValue "4294967297".toList : Int) ∧
      (Parse linux (cmd ["prog", "-parallel", "4294967297", "a.so", "m.mch"])
        Options.default).1 = true ∧
      (Parse linux (cmd ["prog", "-parallel", "4294967297", "a.so", "m.mch"])
        Options.default).2.o.workerCount = 1 :=
  ⟨by decide, by decide, by decide, by decide, by decide, by decide⟩

/-! ## C8: `-parallel` followed by something that is not a number -/

theorem execSwitch_setParallel (e : Env) (prog : CStr) (rest : List CStr) (st : State)
    (sw : Switch) :
    execSwitch e prog rest st.setParallel sw = (execSwitch e prog rest st sw).setParallel := by
  cases sw <;> rcases rest with _ | ⟨v, _ | ⟨w, r⟩⟩ <;>
    simp only [execSwitch, withValue, List.tail, failHelp, failError, processMethodContext,
      processJit, State.setParallel] <;>
    (try split_ifs) <;> rfl

theorem positional_setParallel (e : Env) (prog tok : CStr) (st : State) :
    positional e prog tok st.setParallel = (positional e prog tok st).setParallel := by
  unfold positional
  split
  · rfl
  · simp only [processJit, processMethodContext, failError, State.setParallel]
    split_ifs <;> rfl

/-- No pass reads `o->parallel`: a pass in a state with `parallel` set does what it does
without, and `parallel` stays set. -/
theorem step_setParallel (e : Env) (prog : CStr) (st : State) (tok : CStr)
    (rest : List CStr) :
    step e prog st.setParallel tok rest = (step e prog st tok rest).setParallel := by
  unfold step
  split_ifs
  · exact execSwitch_setParallel e prog rest st _
  · rfl
  · exact positional_setParallel e prog tok st


/-- C8. Let a token select `-parallel` and be followed by a token `t` with at least
one non-digit character. The pass over `-parallel` sets `parallel`, changes nothing
else (`workerCount` included) and does not consume `t`: the scan goes on with `t`
as the next token to classify, and the pass over `t` does exactly what it would do
without `parallel` set. In particular (when the shared-library suffix is not `.mch`)
the pass over `foo.mch` after `-parallel` makes it the context file, and
`workerCount` is as before. -/
theorem parallel_leaves_non_number (e : Env) (prog : CStr) (st : State) (tok t : CStr)
    (rest : List CStr) (hsel : selects e tok = some Switch.parallel)
    (ht : ∃ c ∈ t, isdigit c = false) :
    step e prog st tok (t :: rest) = Step.next st.setParallel 0 ∧
      loop e prog 0 st (tok :: t :: rest) = loop e prog 0 st.setParallel (t :: rest) ∧
      step e prog st.setParallel t rest = (step e prog st t rest).setParallel ∧
      (t = "foo.mch".toList →
        _stricmp ".mch".toList e.PLATFORM_SHARED_LIB_SUFFIX_A ≠ 0 →
        step e prog st.setParallel t rest =
          Step.next { st with
            o := { st.o with
              parallel := true, nameOfInputMethodContextFile := some "foo.mch".toList }
            foundFile := true } 0) := by
  have hall : t.all isdigit = false := by
    obtain ⟨c, hc, hd⟩ := ht
    exact List.all_eq_false.2 ⟨c, hc, by simp [hd]⟩
  have hstep : step e prog st tok (t :: rest) = Step.next st.setParallel 0 := by
    rw [step_of_selects hsel]
    simp only [execSwitch]
    rw [if_neg (by simp [hall])]
    rfl
  refine ⟨hstep, loop_of_next hstep, step_setParallel e prog st t rest, ?_⟩
  rintro rfl hsuf
  have hpos : step e prog st.setParallel "foo.mch".toList rest =
      positional e prog "foo.mch".toList st.setParallel := by
    unfold step
    rw [if_neg (by simp [isASwitch])]
  rw [hpos]
  unfold positional
  rw [show strrchr "foo.mch".toList '.' = some ".mch".toList from by decide]
  dsimp only
  rw [if_neg hsuf, if_neg (by decide), if_pos (by decide)]
  rfl

/-- C8 at `-parallel foo.mch` in the Linux build, from the initial state. -/
theorem parallel_leaves_non_number_witness :
    loop linux "prog".toList 0 (State.init Options.default)
        ["-parallel".toList, "foo.mch".toList] =
      loop linux "prog".toList 0 (State.init Options.default).setParallel
        ["foo.mch".toList] :=
  (parallel_leaves_non_number linux "prog".toList (State.init Options.default)
    "-parallel".toList "foo.mch".toList [] (by decide) (by decide)).2.1

/-! ## C10: a worked command line -/

/-- C10. With the shared-library suffix `.so` and a list resolver that maps `5,10-12`
to the four indices 5, 10, 11, 12: parsing
`prog -jit a.so b.so -load m.mch -compile 5,10-12 -applyDiff` into the default record
returns true, and the resulting record is the default one but for
`nameOfJit = a.so`, `nameOfJit2 = b.so`, `nameOfInputMethodContextFile = m.mch`,
`indexCount = 4`, `indexes = 5, 10, 11, 12`, `compileList = 5,10-12` and
`applyDiff = true`; nothing is written. -/
theorem round_trip_example (e : Env)
    (hsuf : e.PLATFORM_SHARED_LIB_SUFFIX_A = ".so".toList)
    (hres : ∀ (count : Int) (list : List Int),
      e.processArgAsMCL "5,10-12".toList count list = (true, 4, [5, 10, 11, 12])) :
    Parse e (cmd ["prog", "-jit", "a.so", "b.so", "-load", "m.mch", "-compile", "5,10-12",
        "-applyDiff"]) Options.default =
      (true,
        { o := { Options.default with
            nameOfJit := some "a.so".toList
            nameOfJit2 := some "b.so".toList
            nameOfInputMethodContextFile := some "m.mch".toList
            indexCount := 4
            indexes := [5, 10, 11, 12]
            compileList := some "5,10-12".toList
            applyDiff := true }
          foundJit := true
          foundFile := true
          out := [] }) := by
  have hfirst : loop e "prog".toList 0 (State.init Options.default)
      (cmd ["-jit", "a.so", "b.so", "-load", "m.mch"]) =
      Scan.done
        { o := { Options.default with
            nameOfJit := some "a.so".toList
            nameOfJit2 := some "b.so".toList
            nameOfInputMethodContextFile := some "m.mch".toList }
          foundJit := true
          foundFile := true
          out := [] } := by
    obtain ⟨pal, suffix, maxWait, md5, cdt, resolver, atoi⟩ := e
    dsimp only at hsuf
    subst hsuf
    cases pal <;> rfl
  rw [show cmd ["prog", "-jit", "a.so", "b.so", "-load", "m.mch", "-compile", "5,10-12",
        "-applyDiff"] = "prog".toList :: (cmd ["-jit", "a.so", "b.so", "-load", "m.mch"] ++
          cmd ["-compile", "5,10-12", "-applyDiff"]) from rfl,
    Parse_cons_append (by intro x hx; cases hx; rfl) (by decide) hfirst]
  rw [show cmd ["-compile", "5,10-12", "-applyDiff"] =
    "-compile".toList :: "5,10-12".toList :: ["-applyDiff".toList] from rfl, loop_zero_cons,
    step_of_selects (show selects e "-compile".toList = some Switch.compile from rfl)]
  simp only [execSwitch, withValue, hres]
  rfl

/-- C10 in the Linux build, whose resolver knows the list `5,10-12`. -/
theorem round_trip_example_witness :
    (Parse linux (cmd ["prog", "-jit", "a.so", "b.so", "-load", "m.mch", "-compile",
      "5,10-12", "-applyDiff"]) Options.default).1 = true :=
  congrArg Prod.fst (round_trip_example linux rfl (fun _ _ => rfl))

/-! ## Abbreviated switch names -/

theorem _strnicmp_of_prefix : ∀ (p name : CStr),
    p.map tolower <+: name.map tolower → _strnicmp p name p.length = 0
  | [], _, _ => by simp [_strnicmp]
  | c :: p, [], h => by simp at h
  | c :: p, a :: name, h => by
    rw [List.map_cons, List.map_cons, List.cons_prefix_cons] at h
    show _strnicmp (c :: p) (a :: name) (p.length + 1) = 0
    unfold _strnicmp
    rw [if_pos h.1]
    exact _strnicmp_of_prefix p name h.2

theorem _strnicmp_length_le : ∀ (p name : CStr),
    _strnicmp p name p.length = 0 → p.length ≤ name.length
  | [], _, _ => Nat.zero_le _
  | c :: p, [], h => by simp [_strnicmp] at h
  | c :: p, a :: name, h => by
    change _strnicmp (c :: p) (a :: name) (p.length + 1) = 0 at h
    unfold _strnicmp at h
    split_ifs at h with h1 h2
    · exact Nat.succ_le_succ (_strnicmp_length_le p name h)
    · exact absurd h (by decide)

/-- If a token matches one name, it does not match a name with another first letter. -/
theorem _strnicmp_other_head {c a b : Char} {s name other : CStr} {n m : Nat}
    (h : _strnicmp (c :: s) (a :: name) (n + 1) = 0) (hab : tolower a ≠ tolower b) :
    _strnicmp (c :: s) (b :: other) (m + 1) ≠ 0 := by
  unfold _strnicmp at h ⊢
  split_ifs at h with h1 h2
  · rw [if_neg (by rw [h1]; exact hab)]
    split_ifs <;> decide
  · exact absurd h (by decide)

theorem _stricmp_length {s t : CStr} (h : _stricmp s t = 0) : s.length = t.length := by
  have := congrArg List.length ((_stricmp_eq_zero_iff s t).1 h)
  simpa using this


theorem _strnicmp_other_head_eq {c a b : Char} {s name other : CStr} {n m : Nat}
    (h : _strnicmp (c :: s) (a :: name) (n + 1) = 0) (hab : tolower a ≠ tolower b) :
    (_strnicmp (c :: s) (b :: other) (m + 1) = 0) = False :=
  eq_false (_strnicmp_other_head h hab)

theorem abbreviable_ne_nil : ∀ x ∈ abbreviable, x.1 ≠ [] := by decide

/-- A token that matches the name of an abbreviable switch over its own length, and
is no longer than it, selects that switch in the chain. -/
theorem switchOf_of_match (e : Env) :
    ∀ x ∈ abbreviable, ∀ (c : Char) (s : CStr),
      _strnicmp (c :: s) x.1 (s.length + 1) = 0 → (c :: s).length ≤ x.1.length →
      switchOf e (c :: s) (s.length + 1) = x.2 := by
  intro x hx c s hN hlen
  simp only [abbreviable, List.mem_cons, List.mem_singleton, List.not_mem_nil, or_false] at hx
  casesm* _ ∨ _
  all_goals
    subst_vars
    simp only [String.toList] at hN
    first
      | (simp +decide only [switchOf, String.toList, _strnicmp_other_head_eq hN, hN, if_true,
          if_false, false_or, or_false, and_false]
         done)
      | (have hskip : (_stricmp (c :: s)
              ['s', 'k', 'i', 'p', 'C', 'l', 'e', 'a', 'n', 'u', 'p'] = 0) = False := by
           refine eq_false fun h => ?_
           have h2 : (c :: s).length = 11 := _stricmp_length h
           have h3 : (c :: s).length ≤ 6 := hlen
           omega
         simp +decide only [switchOf, String.toList, _strnicmp_other_head_eq hN, hN, hskip,
           if_true, if_false, false_or, or_false, and_false])

/-- A non-empty case-insensitive beginning of the name of an abbreviable switch selects
that switch in the chain. -/
theorem switchOf_abbreviation (e : Env) {name : CStr} {sw : Switch}
    (hname : (name, sw) ∈ abbreviable) {p : CStr} (hp : p ≠ [])
    (hpre : p.map tolower <+: name.map tolower) : switchOf e p p.length = sw := by
  obtain ⟨c, s, rfl⟩ := List.exists_cons_of_ne_nil hp
  have hN := _strnicmp_of_prefix _ _ hpre
  exact switchOf_of_match e _ hname c s hN (_strnicmp_length_le _ _ hN)

/-- A token of the form introducer, then a beginning of an abbreviable name, selects
that switch. -/
theorem selects_abbreviation (e : Env) {name : CStr} {sw : Switch}
    (hname : (name, sw) ∈ abbreviable) (intro : Char) {p : CStr}
    (hintro : isASwitch e (intro :: name) = true) (hp : p ≠ [])
    (hpre : p.map tolower <+: name.map tolower) : selects e (intro :: p) = some sw := by
  have h1 : isASwitch e (intro :: p) = true := hintro
  have h2 : strlen (intro :: p) > 1 := by
    cases p with
    | nil => exact absurd rfl hp
    | cons c s => simp [strlen]
  rw [selects_of_switch h1 h2]
  exact congrArg some (switchOf_abbreviation e hname hp hpre)

/-! ## Replacing a token that the scan classifies -/

theorem heads_length {e : Env} {prog : CStr} {c : State × List CStr} :
    ∀ (toks : List CStr) (used : Nat) (st : State),
      c ∈ heads e prog used st toks → c.2.length + used ≤ toks.length
  | [], used, st, h => by cases used <;> simp [heads] at h
  | _ :: rest, used + 1, st, h => by
    have := heads_length rest used st h
    simp only [List.length_cons]; omega
  | tok :: rest, 0, st, h => by
    rw [heads_zero_cons] at h
    rcases List.mem_cons.1 h with rfl | h
    · simp
    · cases hs : step e prog st tok rest with
      | ret st1 => rw [hs] at h; simp at h
      | next st1 k =>
        rw [hs] at h
        have := heads_length rest k st1 h
        simp only [List.length_cons]; omega

/-- The scan from the start agrees with the scan from any of its loop heads. -/
theorem loop_eq_of_head {e : Env} {prog : CStr} {c : State × List CStr} :
    ∀ (toks : List CStr) (used : Nat) (st : State),
      c ∈ heads e prog used st toks → loop e prog used st toks = loop e prog 0 c.1 c.2
  | [], used, st, h => by cases used <;> simp [heads] at h
  | _ :: rest, used + 1, st, h => loop_eq_of_head rest used st h
  | tok :: rest, 0, st, h => by
    rw [heads_zero_cons] at h
    rcases List.mem_cons.1 h with rfl | h
    · rfl
    · rw [loop_zero_cons]
      cases hs : step e prog st tok rest with
      | ret st1 => rw [hs] at h; simp at h
      | next st1 k =>
        rw [hs] at h
        exact loop_eq_of_head rest k st1 h


/-- The pass over a switch looks at no more than the two tokens after it. -/
theorem execSwitch_take (e : Env) (prog : CStr) (rest : List CStr) (st : State) (sw : Switch) :
    execSwitch e prog (rest.take 2) st sw = execSwitch e prog rest st sw := by
  cases sw <;> rcases rest with _ | ⟨v, _ | ⟨w, r⟩⟩ <;> rfl

theorem execSwitch_replace {e : Env} {prog : CStr} {st st1 : State} {sw : Switch} {k : Nat}
    (pre : List CStr) {X Y : CStr} {rest : List CStr} (hX : X.all isdigit = false)
    (hY : Y.all isdigit = false)
    (h : execSwitch e prog (pre ++ X :: rest) st sw = Step.next st1 k) (hk : k ≤ pre.length) :
    execSwitch e prog (pre ++ Y :: rest) st sw = Step.next st1 k := by
  rcases pre with _ | ⟨a, _ | ⟨b, pre⟩⟩
  · have hk0 : k = 0 := by simpa using hk
    subst hk0
    cases sw <;>
      simp only [execSwitch, withValue, List.tail, failHelp, failError, processMethodContext,
        processJit, List.nil_append, hX, hY] at h ⊢ <;>
      first
        | exact h
        | cases h
        | (split_ifs at h <;> cases h)
        | (rcases rest with _ | ⟨w, r⟩ <;>
            (try simp only [execSwitch, withValue, List.tail, failHelp] at h) <;>
            (try split_ifs at h) <;> cases h)
  · have hk1 : k ≤ 1 := by simpa using hk
    cases sw <;>
      simp only [execSwitch, withValue, List.tail, failHelp, failError, processMethodContext,
        processJit, List.cons_append, List.nil_append] at h ⊢ <;>
      first
        | exact h
        | (rcases rest with _ | ⟨w, r⟩ <;> (try split_ifs at h) <;> cases h <;> omega)
  · rw [← execSwitch_take] at h ⊢
    exact h

/-- A successful pass is not affected by replacing a token it does not reach, when
neither the token nor its replacement is a string of digits. -/
theorem step_replace {e : Env} {prog : CStr} {st st1 : State} {tok : CStr} {k : Nat}
    (pre : List CStr) {X Y : CStr} {rest : List CStr} (hX : X.all isdigit = false)
    (hY : Y.all isdigit = false)
    (h : step e prog st tok (pre ++ X :: rest) = Step.next st1 k) (hk : k ≤ pre.length) :
    step e prog st tok (pre ++ Y :: rest) = Step.next st1 k := by
  rcases step_next_elim h with ⟨h1, h2, h3⟩ | ⟨h1, h3⟩
  · unfold step
    rw [if_pos h1, if_pos h2]
    exact execSwitch_replace pre hX hY h3 hk
  · unfold step
    rw [h1]
    exact h3


/-- If the scan classifies the token after `pre`, it still does, in the same state,
when that token is replaced, provided neither token is a string of digits. -/
theorem heads_replace {e : Env} {prog : CStr} {X Y : CStr} {rest : List CStr} {st : State}
    (hX : X.all isdigit = false) (hY : Y.all isdigit = false) :
    ∀ (pre : List CStr) (used : Nat) (st0 : State),
      (st, X :: rest) ∈ heads e prog used st0 (pre ++ X :: rest) →
      (st, Y :: rest) ∈ heads e prog used st0 (pre ++ Y :: rest)
  | [], 0, st0, h => by
    rw [List.nil_append, heads_zero_cons] at h ⊢
    rcases List.mem_cons.1 h with heq | h
    · cases heq
      exact List.mem_cons_self _ _
    · exfalso
      cases hs : step e prog st0 X rest with
      | ret st1 => rw [hs] at h; simp at h
      | next st1 k =>
        rw [hs] at h
        have := heads_length _ _ _ h
        simp at this
        omega
  | [], used + 1, st0, h => by
    exfalso
    have := heads_length _ _ _ h
    simp at this
  | t :: pre, used + 1, st0, h => heads_replace hX hY pre used st0 h
  | t :: pre, 0, st0, h => by
    rw [List.cons_append, heads_zero_cons] at h ⊢
    rcases List.mem_cons.1 h with heq | h
    · exfalso
      have := congrArg (fun c : State × List CStr => c.2.length) heq
      simp at this
      omega
    · cases hs : step e prog st0 t (pre ++ X :: rest) with
      | ret st1 => rw [hs] at h; simp at h
      | next st1 k =>
        rw [hs] at h
        have hlen := heads_length _ _ _ h
        have hk : k ≤ pre.length := by
          simp at hlen
          omega
        rw [step_replace pre hX hY hs hk]
        exact List.mem_cons_of_mem _ (heads_replace hX hY pre k st1 h)

theorem not_all_isdigit_of_isASwitch {e : Env} {tok : CStr} (h : isASwitch e tok = true) :
    tok.all isdigit = false := by
  cases tok with
  | nil => cases h
  | cons c s =>
    have hc : c = '-' ∨ c = '/' := by
      simp only [isASwitch, Bool.or_eq_true, decide_eq_true_eq, Bool.and_eq_true] at h
      rcases h with h | h
      · exact Or.inl h
      · exact Or.inr h.2
    rw [List.all_cons]
    rcases hc with rfl | rfl <;> rfl

/-! ## C9: abbreviated switches -/

/-- C9. Let the scan of `prog pre.. T rest..` classify the token `T` that consists of a
switch introducer and the full name of an abbreviable switch (`load`, `jit`,
`reproName`, `failingMCList`, `verbosity`, `writeLogFile`, `emitMethodStats`,
`applyDiff`, `compile`, `matchHash`, `parallel`, `stride`). Replacing `T` by the
introducer followed by any non-empty beginning `p` of the name, in any letter case,
leaves the result of `Parse` unchanged: same return value, same record (and same
output). -/
theorem abbreviation_same_as_full_name (e : Env) (prog : CStr) (pre rest : List CStr)
    (o : Options) (name : CStr) (sw : Switch) (intro : Char) (p : CStr) (st : State)
    (hname : (name, sw) ∈ abbreviable) (hintro : isASwitch e (intro :: name) = true)
    (hp : p ≠ []) (hpre : p.map tolower <+: name.map tolower)
    (hpos : (st, (intro :: name) :: rest) ∈
      parseHeads e (prog :: (pre ++ (intro :: name) :: rest)) o) :
    Parse e (prog :: (pre ++ (intro :: p) :: rest)) o =
      Parse e (prog :: (pre ++ (intro :: name) :: rest)) o := by
  have hfull : selects e (intro :: name) = some sw :=
    selects_abbreviation e hname intro hintro (abbreviable_ne_nil _ hname)
      (List.prefix_refl _)
  have habbr : selects e (intro :: p) = some sw :=
    selects_abbreviation e hname intro hintro hp hpre
  have hX : (intro :: name).all isdigit = false := not_all_isdigit_of_isASwitch hintro
  have hY : (intro :: p).all isdigit = false :=
    @not_all_isdigit_of_isASwitch e (intro :: p) hintro
  have hpos0 : (st, (intro :: name) :: rest) ∈
      heads e prog 0 (State.init o) (pre ++ (intro :: name) :: rest) := hpos
  have hpos' := heads_replace hX hY pre 0 (State.init o) hpos0
  have hstep : step e prog st (intro :: p) rest = step e prog st (intro :: name) rest := by
    rw [step_of_selects hfull, step_of_selects habbr]
  have hloop : loop e prog 0 (State.init o) (pre ++ (intro :: p) :: rest) =
      loop e prog 0 (State.init o) (pre ++ (intro :: name) :: rest) := by
    rw [loop_eq_of_head _ _ _ hpos0, loop_eq_of_head _ _ _ hpos']
    show loop e prog 0 st ((intro :: p) :: rest) = loop e prog 0 st ((intro :: name) :: rest)
    rw [loop_zero_cons, loop_zero_cons, hstep]
  unfold Parse
  have hlen : ((prog :: (pre ++ (intro :: p) :: rest)).length = 1) ↔
      ((prog :: (pre ++ (intro :: name) :: rest)).length = 1) := by simp
  simp only [hlen]
  show (if (prog :: (pre ++ (intro :: name) :: rest)).length = 1 then _
    else match loop e prog 0 (State.init o) (pre ++ (intro :: p) :: rest) with
      | Scan.ret st => (false, st)
      | Scan.done st => validate prog st) = _
  rw [hloop]
  rfl

/-- C9 at `prog -j a.so m.mch` against `prog -jit a.so m.mch` in the Linux build. -/
theorem abbreviation_same_as_full_name_witness :
    Parse linux (cmd ["prog", "-J", "a.so", "m.mch"]) Options.default =
      Parse linux (cmd ["prog", "-jit", "a.so", "m.mch"]) Options.default :=
  abbreviation_same_as_full_name linux "prog".toList [] (cmd ["a.so", "m.mch"])
    Options.default "jit".toList Switch.jit '-' "J".toList (State.init Options.default)
    (by decide) (by decide) (by decide) (by decide) (by decide)

/-! ## A pass that returns false -/

theorem parseHeads_length {e : Env} {argv : List CStr} {o : Options} {c : State × List CStr}
    (hc : c ∈ parseHeads e argv o) : argv.length ≠ 1 := by
  intro h1
  cases argv with
  | nil => cases h1
  | cons a as =>
    cases as with
    | nil => simp [parseHeads, heads] at hc
    | cons b bs => simp at h1

/-- If the pass at a loop head returns false, `Parse` returns false in the state that
pass leaves. -/
theorem Parse_of_head_ret {e : Env} {argv : List CStr} {o : Options} {st st1 : State}
    {tok : CStr} {rest : List CStr} (hc : (st, tok :: rest) ∈ parseHeads e argv o)
    (hs : step e (argv.headD []) st tok rest = Step.ret st1) :
    Parse e argv o = (false, st1) := by
  have hlen := parseHeads_length hc
  have hloop : loop e (argv.headD []) 0 (State.init o) argv.tail = Scan.ret st1 := by
    rw [loop_eq_of_head _ _ _ hc]
    exact loop_of_ret hs
  unfold Parse
  dsimp only
  rw [if_neg hlen, hloop]

/-! ## C11: the bare invocation and the help switch -/

theorem switchOf_help (e : Env) {p : CStr} (hp : p ≠ [])
    (hhelp : p.map tolower <+: "help".toList.map tolower ∨ p = "?".toList) :
    switchOf e p p.length = Switch.help := by
  unfold switchOf
  rw [if_pos]
  rcases hhelp with h | rfl
  · exact Or.inl ( _strnicmp_of_prefix _ _ h)
  · exact Or.inr (Or.inr (by decide))

/-- C11. `Parse` returns false for the bare invocation `prog`, after printing the usage
text. And whenever the scan classifies a help switch (a switch introducer followed by
`?` or by a non-empty beginning of `help` in any letter case), `Parse` returns false,
whatever the other arguments are: that pass prints the usage text and nothing else. -/
theorem help_request_returns_false (e : Env) (o : Options) :
    (∀ prog : CStr,
        Parse e [prog] o = (false, { State.init o with out := [Event.DumpHelp prog] })) ∧
      ∀ (argv : List CStr) (st : State) (intro : Char) (p : CStr) (rest : List CStr),
        (st, (intro :: p) :: rest) ∈ parseHeads e argv o →
        isASwitch e (intro :: p) = true → p ≠ [] →
        (p.map tolower <+: "help".toList.map tolower ∨ p = "?".toList) →
        Parse e argv o =
          (false, { st with out := st.out ++ [Event.DumpHelp (argv.headD [])] }) := by
  refine ⟨fun prog => rfl, ?_⟩
  intro argv st intro p rest hc hsw hp hhelp
  refine Parse_of_head_ret hc ?_
  have hsel : selects e (intro :: p) = some Switch.help := by
    have h2 : strlen (intro :: p) > 1 := by
      cases p with
      | nil => exact absurd rfl hp
      | cons c s => simp [strlen]
    rw [selects_of_switch hsw h2]
    exact congrArg some (switchOf_help e hp hhelp)
  rw [step_of_selects hsel]
  rfl

/-- C11 at `prog a.so m.mch -H` in the Linux build. -/
theorem help_request_returns_false_witness :
    (Parse linux (cmd ["prog", "a.so", "m.mch", "-H"]) Options.default).1 = false :=
  congrArg Prod.fst
    ((help_request_returns_false linux Options.default).2
      (cmd ["prog", "a.so", "m.mch", "-H"])
      (Parse linux (cmd ["prog", "a.so", "m.mch"]) Options.default).2 '-' "H".toList []
      (by decide) (by decide) (by decide) (by decide))


/-! ## C12: positional tokens that are not recognised -/

theorem strrchr_eq_none_iff (c : Char) : ∀ s : CStr, strrchr s c = none ↔ c ∉ s
  | [] => by simp [strrchr]
  | a :: s => by
    unfold strrchr
    cases h : strrchr s c with
    | some r =>
      have := (strrchr_eq_none_iff c s).not.1 (by simp [h])
      simp only [List.mem_cons, not_or]
      constructor
      · intro hn; cases hn
      · intro hn; exact absurd hn.2 this
    | none =>
      have := (strrchr_eq_none_iff c s).1 h
      dsimp only
      by_cases hac : a = c
      · simp [hac]
      · simp [hac, this, Ne.symm hac]

/-- What `strrchr` finds is the part of the string from the last occurrence of the
character on. -/
theorem strrchr_eq_some (c : Char) : ∀ (s d : CStr), strrchr s c = some d →
    ∃ pre t, s = pre ++ d ∧ d = c :: t ∧ c ∉ t
  | [], d, h => by simp [strrchr] at h
  | a :: s, d, h => by
    unfold strrchr at h
    cases hs : strrchr s c with
    | some r =>
      rw [hs] at h
      cases h
      obtain ⟨pre, t, h1, h2, h3⟩ := strrchr_eq_some c s d hs
      exact ⟨a :: pre, t, by rw [h1]; rfl, h2, h3⟩
    | none =>
      rw [hs] at h
      dsimp only at h
      split_ifs at h with hac
      cases h
      exact ⟨[], s, rfl, by rw [hac], (strrchr_eq_none_iff c s).1 hs⟩

/-- C12. Whenever the scan classifies a token positionally (it does not start with a
switch introducer and was not consumed as the value of a switch) and the token
either contains no `.` or its part from the last `.` on is, ignoring letter case,
none of the shared-library suffix, `.mc`, `.mch`, `.mct`: `Parse` returns false,
whatever else is on the command line. -/
theorem unrecognised_positional_returns_false (e : Env) (argv : List CStr) (o : Options)
    (st : State) (tok : CStr) (rest : List CStr)
    (hc : (st, tok :: rest) ∈ parseHeads e argv o) (hpos : isASwitch e tok = false)
    (hext : '.' ∉ tok ∨ ∃ lastdot, strrchr tok '.' = some lastdot ∧
      _stricmp lastdot e.PLATFORM_SHARED_LIB_SUFFIX_A ≠ 0 ∧
      _stricmp lastdot ".mc".toList ≠ 0 ∧ _stricmp lastdot ".mch".toList ≠ 0 ∧
      _stricmp lastdot ".mct".toList ≠ 0) :
    (Parse e argv o).1 = false := by
  have hstep : ∃ st1, step e (argv.headD []) st tok rest = Step.ret st1 := by
    unfold step
    rw [hpos]
    unfold positional
    rcases hext with hno | ⟨d, hd, h1, h2, h3, h4⟩
    · rw [(strrchr_eq_none_iff '.' tok).2 hno]
      exact ⟨_, rfl⟩
    · rw [hd]
      dsimp only
      rw [if_neg h1, if_neg h2, if_neg h3, if_neg h4]
      exact ⟨_, rfl⟩
  obtain ⟨st1, hs⟩ := hstep
  rw [Parse_of_head_ret hc hs]

/-- C12 at `prog a.so m.mch notes.txt -applyDiff` in the Linux build. -/
theorem unrecognised_positional_returns_false_witness :
    (Parse linux (cmd ["prog", "a.so", "m.mch", "notes.txt", "-applyDiff"])
      Options.default).1 = false :=
  unrecognised_positional_returns_false linux
    (cmd ["prog", "a.so", "m.mch", "notes.txt", "-applyDiff"]) Options.default
    (Parse linux (cmd ["prog", "a.so", "m.mch"]) Options.default).2 "notes.txt".toList
    (cmd ["-applyDiff"]) (by decide) (by decide) (Or.inr ⟨".txt".toList, by decide⟩)

/-! ## C13: a switch without its value -/

theorem execSwitch_nil_of_takesValue (e : Env) (prog : CStr) (st : State) {sw : Switch}
    (h : sw.takesValue = true) : execSwitch e prog [] st sw = failHelp prog st := by
  cases sw <;> first | rfl | cases h

/-- C13. If the last token of the command line is classified as a switch that takes a
value (`load`, `jit`, `reproName`, `failingMCList`, `diffMCList`, `target`,
`verbosity`, `writeLogFile`, `emitMethodStats`, `compile`, `matchHash`, `stride`),
`Parse` returns false; and so it does if the command line ends with a token
classified as `-stride` and a single token after it. -/
theorem missing_value_returns_false (e : Env) (argv : List CStr) (o : Options) (st : State)
    (tok : CStr) (sw : Switch) (hsel : selects e tok = some sw) :
    ((st, [tok]) ∈ parseHeads e argv o → sw.takesValue = true →
        (Parse e argv o).1 = false) ∧
      ∀ v : CStr, (st, [tok, v]) ∈ parseHeads e argv o → sw = Switch.stride →
        (Parse e argv o).1 = false := by
  constructor
  · intro hc htv
    rw [Parse_of_head_ret hc
      (by rw [step_of_selects hsel, execSwitch_nil_of_takesValue e _ st htv]; rfl)]
  · intro v hc hst
    subst hst
    rw [Parse_of_head_ret hc (by rw [step_of_selects hsel]; rfl)]

/-- C13 at `prog a.so m.mch -compile` in the Linux build. -/
theorem missing_value_returns_false_witness :
    (Parse linux (cmd ["prog", "a.so", "m.mch", "-compile"]) Options.default).1 = false :=
  (missing_value_returns_false linux (cmd ["prog", "a.so", "m.mch", "-compile"])
    Options.default (Parse linux (cmd ["prog", "a.so", "m.mch"]) Options.default).2
    "-compile".toList Switch.compile (by decide)).1 (by decide) (by decide)

/-! ## C14: the length of the hash -/

theorem failError_format {prog : CStr} {f1 f2 : String} {st1 st2 : State}
    (h : failError prog f1 st1 = failError prog f2 st2) (hout : st1.out = st2.out) :
    f1 = f2 := by
  unfold failError at h
  injection h with h
  have h2 := congrArg State.out h
  simp only [hout, DumpHelp, List.append_assoc, List.append_cancel_left_eq] at h2
  injection h2 with h3
  injection h3

/-- What a successful pass does to `hash`: it leaves it, or sets it to a string of the
fixed hash-string length. -/
theorem execSwitch_hash {e : Env} {prog : CStr} {rest : List CStr} {st st1 : State}
    {sw : Switch} {k : Nat} (h : execSwitch e prog rest st sw = Step.next st1 k) :
    st1.o.hash = st.o.hash ∨
      ∃ v, st1.o.hash = some v ∧ (strlen v : Int) = e.MD5_HASH_BUFFER_SIZE - 1 := by
  cases sw <;> rcases rest with _ | ⟨v, _ | ⟨w, r⟩⟩ <;>
    simp only [execSwitch, withValue, List.tail, failHelp, failError, processMethodContext,
      processJit] at h <;>
    (try split_ifs at h) <;> cases h <;>
    first
      | exact Or.inl rfl
      | exact Or.inr ⟨v, rfl, by omega⟩

theorem step_hash {e : Env} {prog : CStr} {st st1 : State} {tok : CStr}
    {rest : List CStr} {k : Nat} (h : step e prog st tok rest = Step.next st1 k) :
    st1.o.hash = st.o.hash ∨
      ∃ v, st1.o.hash = some v ∧ (strlen v : Int) = e.MD5_HASH_BUFFER_SIZE - 1 := by
  rcases step_next_elim h with ⟨-, -, h3⟩ | ⟨-, h3⟩
  · exact execSwitch_hash h3
  · exact Or.inl (positional_selection h3).2.1

/-- C14. Let a token select `-matchHash` and be followed by a token `h`. In every state
(so before either exclusivity check is made) the pass rejects `h` as a hash, with
the diagnostic for an invalid hash, if and only if the length of `h` differs from
`MD5_HASH_BUFFER_SIZE - 1`; a token of that length goes on to the two exclusivity
checks. Hence, parsing into the default record, whenever `Parse` returns true with
`hash` set, `hash` has exactly that length. -/
theorem matchHash_length_checked_first (e : Env) (prog : CStr) (st : State) (tok h : CStr)
    (rest : List CStr) (hsel : selects e tok = some Switch.matchHash) :
    (step e prog st tok (h :: rest) =
          failError prog "Arg '%s' is invalid, needed a valid method context hash." st ↔
        (strlen h : Int) ≠ e.MD5_HASH_BUFFER_SIZE - 1) ∧
      ((strlen h : Int) = e.MD5_HASH_BUFFER_SIZE - 1 →
        step e prog st tok (h :: rest) =
          if st.o.indexCount > 0 then
            failError prog "Cannot use both method context list and method context hash." st
          else if st.o.offset > 0 ∧ st.o.increment > 0 then
            failError prog "Cannot use method context hash in parallel mode." st
          else Step.next { st with o := { st.o with hash := some h } } 1) ∧
      ∀ (argv : List CStr) (x : CStr), (Parse e argv Options.default).1 = true →
        (Parse e argv Options.default).2.o.hash = some x →
        (strlen x : Int) = e.MD5_HASH_BUFFER_SIZE - 1 := by
  refine ⟨?_, ?_, ?_⟩
  · rw [step_of_selects hsel]
    simp only [execSwitch, withValue]
    constructor
    · intro hs
      by_contra hlen
      rw [if_neg (not_not.2 hlen)] at hs
      split_ifs at hs
      · exact absurd (failError_format hs rfl) (by decide)
      · exact absurd (failError_format hs rfl) (by decide)
      · cases hs
    · intro hlen
      rw [if_pos hlen]
  · intro hlen
    rw [step_of_selects hsel]
    simp only [execSwitch, withValue]
    rw [if_neg (not_not.2 hlen)]
  · intro argv x hret hx
    obtain ⟨stf, -, hloop, -, hP⟩ := Parse_true hret
    rw [hP] at hx
    have hinv := loop_done_inv
      (fun s => ∀ y, s.o.hash = some y → (strlen y : Int) = e.MD5_HASH_BUFFER_SIZE - 1)
      (fun s _ _ s1 _ hP hs => by
        intro y hy
        rcases step_hash hs with h | ⟨v, hv, hl⟩
        · exact hP y (h ▸ hy)
        · rw [hv] at hy; cases hy; exact hl)
      _ _ _ _ (by intro y hy; cases hy) hloop
    exact hinv x hx

/-- C14 at `-matchHash abc` in the Linux build: a hash of length 3 is rejected. -/
theorem matchHash_length_checked_first_witness :
    step linux "prog".toList (State.init Options.default) "-matchHash".toList
        ["abc".toList] =
      failError "prog".toList "Arg '%s' is invalid, needed a valid method context hash."
        (State.init Options.default) :=
  ((matchHash_length_checked_first linux "prog".toList (State.init Options.default)
    "-matchHash".toList "abc".toList [] (by decide)).1).2 (by decide)


/-! ## C15: `-diffMCList` and `-target` -/

theorem ite_ne_of {α : Type} {c : Prop} [Decidable c] {a b x : α} (ha : a ≠ x) (hb : b ≠ x) :
    (if c then a else b) ≠ x := by
  split_ifs
  · exact ha
  · exact hb

theorem _strnicmp_head {c a : Char} {s name : CStr} {n : Nat}
    (h : _strnicmp (c :: s) (a :: name) (n + 1) = 0) : tolower c = tolower a := by
  unfold _strnicmp at h
  split_ifs at h with h1 h2
  · exact h1
  · exact absurd h (by decide)

/-- The chain selects `diffMCList` exactly when the comparison over 10 characters
yields 0. -/
theorem switchOf_eq_diffMCList (e : Env) (name : CStr) (n : Nat) :
    switchOf e name (n + 1) = Switch.diffMCList ↔
      _strnicmp name "diffMCList".toList 10 = 0 := by
  constructor
  · intro h
    by_contra hd
    revert h
    unfold switchOf
    rw [if_neg hd]
    repeat' first | apply ite_ne_of | decide
  · intro h
    rcases name with _ | ⟨c, s⟩
    · exact absurd h (by decide)
    · simp only [String.toList] at h
      simp +decide only [switchOf, String.toList, _strnicmp_other_head_eq h, h, if_true,
        if_false, false_or, or_false, and_false]


/-- The chain selects `target` exactly when the comparison over 6 characters yields 0. -/
theorem switchOf_eq_target (e : Env) (name : CStr) (n : Nat) :
    switchOf e name (n + 1) = Switch.target ↔ _strnicmp name "target".toList 6 = 0 := by
  constructor
  · intro h
    by_contra hd
    revert h
    unfold switchOf
    rw [if_neg hd]
    repeat' first | apply ite_ne_of | decide
  · intro h
    rcases name with _ | ⟨c, s⟩
    · exact absurd h (by decide)
    · simp only [String.toList] at h
      simp +decide only [switchOf, String.toList, _strnicmp_other_head_eq h, h, if_true,
        if_false, false_or, or_false, and_false]

/-- The comparison over `n` characters yields 0 exactly when the first `n` characters
agree up to letter case. -/
theorem _strnicmp_eq_zero_iff : ∀ (n : Nat) (s t : CStr),
    _strnicmp s t n = 0 ↔ (s.take n).map tolower = (t.take n).map tolower
  | 0, s, t => by simp [_strnicmp]
  | n + 1, [], [] => by simp [_strnicmp]
  | n + 1, [], b :: t => by simp [_strnicmp]
  | n + 1, a :: s, [] => by simp [_strnicmp]
  | n + 1, a :: s, b :: t => by
    unfold _strnicmp
    by_cases h : tolower a = tolower b
    · rw [if_pos h, _strnicmp_eq_zero_iff n s t]; simp [h]
    · rw [if_neg h]
      split_ifs <;> simp [h]

theorem selects_cons (e : Env) (intro c : Char) (s : CStr) :
    selects e (intro :: c :: s) =
      if isASwitch e [intro] then some (switchOf e (c :: s) (s.length + 1)) else none := by
  unfold selects
  have h1 : isASwitch e (intro :: c :: s) = isASwitch e [intro] := rfl
  have h2 : strlen (intro :: c :: s) > 1 := by simp [strlen]
  rw [h1]
  by_cases h : isASwitch e [intro] = true
  · rw [if_pos ⟨h, h2⟩, if_pos h]; rfl
  · rw [if_neg (fun hh => h hh.1), if_neg h]

/-- C15, as the code has it. A token selects `-diffMCList` (respectively `-target`)
if and only if it starts with a switch introducer and the first 10 (respectively 6)
characters after it are `diffMCList` (respectively `target`) up to letter case. So no
shorter abbreviation selects them, and every longer token that begins with the full
name does. -/
theorem diffMCList_target_fixed_length (e : Env) (intro : Char) (text : CStr) :
    (selects e (intro :: text) = some Switch.diffMCList ↔
        isASwitch e [intro] = true ∧
          (text.take 10).map tolower = "diffMCList".toList.map tolower) ∧
      (selects e (intro :: text) = some Switch.target ↔
        isASwitch e [intro] = true ∧
          (text.take 6).map tolower = "target".toList.map tolower) ∧
      (text.length < 10 → selects e (intro :: text) ≠ some Switch.diffMCList) ∧
      (text.length < 6 → selects e (intro :: text) ≠ some Switch.target) := by
  have hd : selects e (intro :: text) = some Switch.diffMCList ↔
      isASwitch e [intro] = true ∧
        (text.take 10).map tolower = "diffMCList".toList.map tolower := by
    rcases text with _ | ⟨c, s⟩
    · constructor
      · intro h; simp [selects, strlen] at h
      · intro h; exact absurd h.2 (by decide)
    · have hk : ((c :: s).take 10).map tolower = "diffMCList".toList.map tolower ↔
          _strnicmp (c :: s) "diffMCList".toList 10 = 0 :=
        (_strnicmp_eq_zero_iff 10 (c :: s) "diffMCList".toList).symm
      rw [selects_cons, hk, ← switchOf_eq_diffMCList e (c :: s) s.length]
      by_cases hi : isASwitch e [intro] = true
      · rw [if_pos hi]; simp [hi]
      · rw [if_neg hi]; simp [hi]
  have ht : selects e (intro :: text) = some Switch.target ↔
      isASwitch e [intro] = true ∧
        (text.take 6).map tolower = "target".toList.map tolower := by
    rcases text with _ | ⟨c, s⟩
    · constructor
      · intro h; simp [selects, strlen] at h
      · intro h; exact absurd h.2 (by decide)
    · have hk : ((c :: s).take 6).map tolower = "target".toList.map tolower ↔
          _strnicmp (c :: s) "target".toList 6 = 0 :=
        (_strnicmp_eq_zero_iff 6 (c :: s) "target".toList).symm
      rw [selects_cons, hk, ← switchOf_eq_target e (c :: s) s.length]
      by_cases hi : isASwitch e [intro] = true
      · rw [if_pos hi]; simp [hi]
      · rw [if_neg hi]; simp [hi]
  refine ⟨hd, ht, ?_, ?_⟩
  · intro hlen h
    have := congrArg List.length (hd.1 h).2
    simp at this
    omega
  · intro hlen h
    have := congrArg List.length (ht.1 h).2
    simp at this
    omega

/-- C15 as stated fails: in the Linux build the longer token `-diffMCListX` selects
`-diffMCList` (and `-targets` selects `-target`), and
`prog a.so m.mch -applyDiff -diffMCListX out.txt` is accepted with `diffMCLFilename`
set. -/
theorem longer_token_selects_diffMCList :
    "diffMCListX".toList.map tolower ≠ "diffMCList".toList.map tolower ∧
      selects linux "-diffMCListX".toList = some Switch.diffMCList ∧
      selects linux "-targets".toList = some Switch.target ∧
      (Parse linux (cmd ["prog", "a.so", "m.mch", "-applyDiff", "-diffMCListX", "out.txt"])
        Options.default).1 = true ∧
      (Parse linux (cmd ["prog", "a.so", "m.mch", "-applyDiff", "-diffMCListX", "out.txt"])
        Options.default).2.o.diffMCLFilename = some "out.txt".toList :=
  ⟨by decide, by decide, by decide, by decide, by decide⟩

/-! ## C16: which context file is kept -/

theorem overHeads_cons (f : CStr → List CStr → Option CStr) (st : State) (tok : CStr)
    (rest : List CStr) (hs : List (State × List CStr)) :
    overHeads f ((st, tok :: rest) :: hs) =
      match f tok rest with
      | none => overHeads f hs
      | some a => a :: overHeads f hs := by
  cases h : f tok rest <;> simp [overHeads, List.filterMap_cons, h]

/-- The pass over `-load` with a non-empty value, in any state. -/
theorem step_load {e : Env} {tok : CStr} (hsel : selects e tok = some Switch.load)
    (prog : CStr) (st : State) {F : CStr} (hF : F ≠ []) (rest : List CStr) :
    step e prog st tok (F :: rest) =
      Step.next { st with
        o := { st.o with nameOfInputMethodContextFile := some F }
        foundFile := true } 1 := by
  rw [step_of_selects hsel]
  simp only [execSwitch, withValue, processMethodContext]
  rw [if_neg (by simpa [strlen] using hF)]

/-- The pass over a positional token that is taken as a context file, in any state. -/
theorem step_positional_context {e : Env} {tok : CStr} {rest : List CStr}
    (hpos : isASwitch e tok = false) (hctx : contextArg e tok rest = some tok)
    (prog : CStr) (st : State) :
    step e prog st tok rest =
      Step.next { st with
        o := { st.o with nameOfInputMethodContextFile := some tok }
        foundFile := true } 0 := by
  unfold contextArg at hctx
  rw [hpos] at hctx
  simp only [Bool.false_eq_true, if_false] at hctx
  unfold step positional
  rw [hpos]
  simp only [Bool.false_eq_true, if_false]
  cases hd : strrchr tok '.' with
  | none => rw [hd] at hctx; cases hctx
  | some d =>
    rw [hd] at hctx
    dsimp only at hctx ⊢
    have hne : tok ≠ [] := by
      rintro rfl
      simp [strrchr] at hd
    have hproc : processMethodContext prog tok 0 st =
        Step.next { st with
          o := { st.o with nameOfInputMethodContextFile := some tok }
          foundFile := true } 0 := by
      unfold processMethodContext
      rw [if_neg (by simpa [strlen] using hne)]
    split_ifs at hctx with h1 h2
    rw [if_neg h1]
    rcases h2 with h2 | h2 | h2
    · rw [if_pos h2, hproc]
    · split_ifs <;> exact hproc
    · split_ifs <;> exact hproc

/-- What a successful pass does to the context file name: a pass that takes a token to
`processMethodContext` sets it to that token, any other pass leaves it. -/
theorem step_contextFile_value {e : Env} {prog : CStr} {st st1 : State} {tok : CStr}
    {rest : List CStr} {k : Nat} (h : step e prog st tok rest = Step.next st1 k) :
    st1.o.nameOfInputMethodContextFile =
      match contextArg e tok rest with
      | none => st.o.nameOfInputMethodContextFile
      | some a => some a := by
  rcases step_next_elim h with ⟨h1, h2, h3⟩ | ⟨h1, h3⟩
  · have hsel := selects_of_switch h1 h2
    unfold contextArg
    rw [if_pos h1, hsel]
    rcases execSwitch_contextFile h3 with ⟨hsw, hr⟩ | hsame
    · rw [hsw] at h3 ⊢
      rw [if_pos rfl]
      cases rest with
      | nil => exact absurd rfl hr
      | cons v r =>
        simp only [execSwitch, withValue, processMethodContext, failError] at h3
        split_ifs at h3
        cases h3
        rfl
    · by_cases hl : switchOf e tok.tail (strlen tok - 1) = Switch.load
      · rw [hl] at h3 ⊢
        rw [if_pos rfl]
        cases rest with
        | nil => simp [execSwitch, withValue, failHelp] at h3
        | cons v r =>
          simp only [execSwitch, withValue, processMethodContext, failError] at h3
          split_ifs at h3
          cases h3
          rfl
      · rw [if_neg (by simpa using hl)]
        exact hsame
  · by_cases hctx : contextArg e tok rest = some tok
    · rw [step_positional_context h1 hctx prog st] at h
      cases h
      rw [hctx]
    · have hnone : contextArg e tok rest = none := by
        unfold contextArg at hctx ⊢
        rw [h1] at hctx ⊢
        simp only [Bool.false_eq_true, if_false] at hctx ⊢
        cases hd : strrchr tok '.' with
        | none => rfl
        | some d =>
          rw [hd] at hctx
          dsimp only at hctx ⊢
          split_ifs at hctx ⊢ <;> first | rfl | exact absurd rfl hctx
      rw [hnone]
      rcases step_contextFile h with hs | hs
      · rw [hnone] at hs; cases hs
      · exact hs


theorem foldl_keep_last : ∀ (l : List CStr) (x : Option CStr),
    l.foldl (fun _ a => some a) x = match l.getLast? with
      | none => x
      | some a => some a
  | [], x => rfl
  | b :: l, x => by
    rw [List.foldl_cons, foldl_keep_last l (some b)]
    cases l with
    | nil => rfl
    | cons c l =>
      rw [List.getLast?_cons_cons]
      rw [List.getLast?_eq_getLast (c :: l) (List.cons_ne_nil c l)]

/-- After a scan that ran to the end, the context file name is the last token that a
pass took to `processMethodContext`, or what it was before when there is none. -/
theorem loop_contextFile {e : Env} {prog : CStr} {stf : State} :
    ∀ (toks : List CStr) (used : Nat) (st : State),
      loop e prog used st toks = Scan.done stf →
      stf.o.nameOfInputMethodContextFile =
        (overHeads (contextArg e) (heads e prog used st toks)).foldl (fun _ a => some a)
          st.o.nameOfInputMethodContextFile
  | [], used, st, h => by
    rw [loop_nil] at h; cases h
    cases used <;> rfl
  | _ :: rest, used + 1, st, h => loop_contextFile rest used st h
  | tok :: rest, 0, st, h => by
    rw [loop_zero_cons] at h
    rw [heads_zero_cons, overHeads_cons]
    cases hs : step e prog st tok rest with
    | ret st1 => rw [hs] at h; cases h
    | next st1 k =>
      rw [hs] at h
      dsimp only at h ⊢
      have hv := step_contextFile_value hs
      have ih := loop_contextFile rest k st1 h
      rw [ih, hv]
      cases contextArg e tok rest <;> rfl

/-- C16, as the code has it. Every pass that takes a token to `processMethodContext`
overwrites the context file name, whatever was set before: the pass over `-load F`
(with `F` not empty) and the pass over a positional `.mc`/`.mch`/`.mct` token alike.
So when `Parse` returns true (from the default record), the context file name is the
last of the tokens processed as context files, not the first. -/
theorem context_file_last_wins (e : Env) (prog : CStr) (st : State) (tok : CStr)
    (rest : List CStr) :
    (∀ F : CStr, selects e tok = some Switch.load → F ≠ [] →
        step e prog st tok (F :: rest) =
          Step.next { st with
            o := { st.o with nameOfInputMethodContextFile := some F }
            foundFile := true } 1) ∧
      (isASwitch e tok = false → contextArg e tok rest = some tok →
        step e prog st tok rest =
          Step.next { st with
            o := { st.o with nameOfInputMethodContextFile := some tok }
            foundFile := true } 0) ∧
      ∀ argv : List CStr, (Parse e argv Options.default).1 = true →
        (Parse e argv Options.default).2.o.nameOfInputMethodContextFile =
          (contextFiles e argv Options.default).getLast? := by
  refine ⟨fun F hsel hF => step_load hsel prog st hF rest,
    fun hpos hctx => step_positional_context hpos hctx prog st, ?_⟩
  intro argv hret
  obtain ⟨stf, -, hloop, -, hP⟩ := Parse_true hret
  rw [hP]
  have h := loop_contextFile _ _ _ hloop
  rw [foldl_keep_last] at h
  rw [h]
  unfold contextFiles parseHeads
  cases (overHeads (contextArg e)
    (heads e (argv.headD []) 0 (State.init Options.default) argv.tail)).getLast? <;> rfl

/-- C16 as stated fails: in the Linux build `prog a.so first.mch second.mch` is
accepted and the context file is the second positional one. -/
theorem second_positional_context_file_wins :
    contextFiles linux (cmd ["prog", "a.so", "first.mch", "second.mch"]) Options.default =
        cmd ["first.mch", "second.mch"] ∧
      (Parse linux (cmd ["prog", "a.so", "first.mch", "second.mch"]) Options.default).1 =
        true ∧
      (Parse linux (cmd ["prog", "a.so", "first.mch", "second.mch"])
        Options.default).2.o.nameOfInputMethodContextFile = some "second.mch".toList :=
  ⟨by decide, by decide, by decide⟩


/-- C16 at `-load m.mch` in the Linux build, with a context file already set. -/
theorem context_file_last_wins_witness :
    step linux "prog".toList
        (Parse linux (cmd ["prog", "a.so", "first.mch"]) Options.default).2 "-load".toList
        ["m.mch".toList] =
      Step.next { (Parse linux (cmd ["prog", "a.so", "first.mch"]) Options.default).2 with
        o := { (Parse linux (cmd ["prog", "a.so", "first.mch"]) Options.default).2.o with
          nameOfInputMethodContextFile := some "m.mch".toList }
        foundFile := true } 1 :=
  (context_file_last_wins linux "prog".toList
    (Parse linux (cmd ["prog", "a.so", "first.mch"]) Options.default).2 "-load".toList
    []).1 "m.mch".toList (by decide) (by decide)

/-! ## C17: the two compiler slots -/

theorem processJit_jitSlots (prog : CStr) {p : CStr} (hp : p ≠ []) (used : Nat) (st : State) :
    ∃ st1, processJit prog p used st = Step.next st1 used ∧
      st1.jitSlots = fillJitSlot st.jitSlots p := by
  unfold processJit
  rw [if_neg (by simpa [strlen] using hp)]
  unfold fillJitSlot State.jitSlots
  dsimp only
  split_ifs
  · exact ⟨_, rfl, rfl⟩
  · exact ⟨_, rfl, rfl⟩

/-- A pass that takes a non-empty token to `processJit` never returns false: it fills
one of the two slots. -/
theorem step_jitArg_some {e : Env} {tok : CStr} {rest : List CStr} {p : CStr}
    (hj : jitArg e tok rest = some p) (hp : p ≠ []) (prog : CStr) (st : State) :
    ∃ st1 k, step e prog st tok rest = Step.next st1 k ∧
      st1.jitSlots = fillJitSlot st.jitSlots p := by
  unfold jitArg at hj
  by_cases hsw : isASwitch e tok = true
  · rw [if_pos hsw] at hj
    split_ifs at hj with hsel
    cases rest with
    | nil => cases hj
    | cons v r =>
      cases hj
      rw [step_of_selects hsel]
      obtain ⟨st1, h1, h2⟩ := processJit_jitSlots prog hp 1 st
      exact ⟨st1, 1, h1, h2⟩
  · rw [if_neg hsw] at hj
    unfold step positional
    rw [if_neg hsw]
    cases hd : strrchr tok '.' with
    | none => rw [hd] at hj; cases hj
    | some d =>
      rw [hd] at hj
      dsimp only at hj ⊢
      split_ifs at hj with h1
      cases hj
      rw [if_pos h1]
      obtain ⟨st1, h1, h2⟩ := processJit_jitSlots prog hp 0 st
      exact ⟨st1, 0, h1, h2⟩

/-- The state a pass ends in, whichever way it ends. -/
theorem execSwitch_jitSlots {e : Env} {prog : CStr} {rest : List CStr} {st : State}
    {sw : Switch} (h : sw ≠ Switch.jit ∨ rest = []) (st1 : State)
    (hs : execSwitch e prog rest st sw = Step.ret st1 ∨
      ∃ k, execSwitch e prog rest st sw = Step.next st1 k) :
    st1.jitSlots = st.jitSlots := by
  cases sw <;> rcases rest with _ | ⟨v, _ | ⟨w, r⟩⟩ <;>
    simp only [execSwitch, withValue, List.tail, failHelp, failError, processMethodContext,
      processJit] at hs <;>
    first
      | (split_ifs at hs <;> rcases hs with hs | ⟨k, hs⟩ <;> cases hs <;> rfl)
      | (rcases hs with hs | ⟨k, hs⟩ <;> cases hs <;> rfl)
      | (rcases h with h | h <;> first | exact absurd rfl h | cases h)


/-- A pass that takes no token to `processJit` leaves the two slots and `foundJit` as
they are, whether it returns false or not. -/
theorem step_jitArg_none {e : Env} {tok : CStr} {rest : List CStr}
    (hj : jitArg e tok rest = none) (prog : CStr) (st st1 : State)
    (hs : step e prog st tok rest = Step.ret st1 ∨
      ∃ k, step e prog st tok rest = Step.next st1 k) :
    st1.jitSlots = st.jitSlots := by
  unfold jitArg at hj
  unfold step at hs
  by_cases hsw : isASwitch e tok = true
  · rw [if_pos hsw] at hj hs
    by_cases hlen : strlen tok > 1
    · rw [if_pos hlen] at hs
      rw [selects_of_switch hsw hlen] at hj
      refine execSwitch_jitSlots ?_ st1 hs
      by_cases hsel : switchOf e tok.tail (strlen tok - 1) = Switch.jit
      · right
        rw [hsel, if_pos rfl] at hj
        cases rest with
        | nil => rfl
        | cons v r => cases hj
      · exact Or.inl hsel
    · rw [if_neg hlen] at hs
      rcases hs with hs | ⟨k, hs⟩ <;> cases hs
      rfl
  · rw [if_neg hsw] at hj hs
    unfold positional at hs
    cases hd : strrchr tok '.' with
    | none =>
      rw [hd] at hs
      rcases hs with hs | ⟨k, hs⟩ <;> cases hs
      rfl
    | some d =>
      rw [hd] at hj hs
      dsimp only at hj hs
      split_ifs at hj with h1
      rw [if_neg h1] at hs
      simp only [processMethodContext, failError] at hs
      split_ifs at hs <;> rcases hs with hs | ⟨k, hs⟩ <;> cases hs <;> rfl

theorem Scan.state_of_loop_cons {e : Env} {prog : CStr} {st : State} {tok : CStr}
    {rest : List CStr} :
    (loop e prog 0 st (tok :: rest)).state =
      match step e prog st tok rest with
      | Step.ret st1 => st1
      | Step.next st1 k => (loop e prog k st1 rest).state := by
  rw [loop_zero_cons]
  cases step e prog st tok rest <;> rfl

/-- The two compiler slots after a scan, however it ends: the paths the scan
processed, filled in one after the other. -/
theorem loop_jitSlots {e : Env} {prog : CStr} :
    ∀ (toks : List CStr) (used : Nat) (st : State),
      (∀ p ∈ overHeads (jitArg e) (heads e prog used st toks), p ≠ []) →
      (loop e prog used st toks).state.jitSlots =
        (overHeads (jitArg e) (heads e prog used st toks)).foldl fillJitSlot st.jitSlots
  | [], used, st, _ => by
    rw [loop_nil]
    cases used <;> rfl
  | _ :: rest, used + 1, st, h => loop_jitSlots rest used st h
  | tok :: rest, 0, st, h => by
    rw [heads_zero_cons, overHeads_cons] at h ⊢
    rw [Scan.state_of_loop_cons]
    cases hj : jitArg e tok rest with
    | none =>
      rw [hj] at h
      dsimp only at h ⊢
      cases hs : step e prog st tok rest with
      | ret st1 =>
        dsimp only
        rw [show overHeads (jitArg e) [] = [] from rfl, List.foldl_nil]
        exact step_jitArg_none hj prog st st1 (Or.inl hs)
      | next st1 k =>
        rw [hs] at h
        dsimp only at h ⊢
        rw [loop_jitSlots rest k st1 h, step_jitArg_none hj prog st st1 (Or.inr ⟨k, hs⟩)]
    | some p =>
      rw [hj] at h
      dsimp only at h ⊢
      obtain ⟨st1, k, hs, hslots⟩ :=
        step_jitArg_some hj (h p (List.mem_cons_self _ _)) prog st
      rw [hs] at h ⊢
      dsimp only at h ⊢
      rw [List.foldl_cons, ← hslots]
      exact loop_jitSlots rest k st1 (fun q hq => h q (List.mem_cons_of_mem _ hq))

theorem foldl_fillJitSlot_found : ∀ (ps : List CStr) (a b : Option CStr),
    ps.foldl fillJitSlot (a, b, true) =
      (a, (match ps.getLast? with
        | none => b
        | some q => some q), true)
  | [], a, b => rfl
  | p :: ps, a, b => by
    rw [List.foldl_cons, show fillJitSlot (a, b, true) p = (a, some p, true) from rfl,
      foldl_fillJitSlot_found ps a (some p)]
    cases ps with
    | nil => rfl
    | cons c l =>
      rw [List.getLast?_cons_cons]
      rw [List.getLast?_eq_getLast (c :: l) (List.cons_ne_nil c l)]

theorem validate_state (prog : CStr) (st : State) :
    (validate prog st).2.o = st.o ∧ (validate prog st).2.foundJit = st.foundJit ∧
      (validate prog st).2.foundFile = st.foundFile := by
  unfold validate
  dsimp only
  split_ifs <;> exact ⟨rfl, rfl, rfl⟩

/-- The state `Parse` ends in has the record and locals of the state the scan ends in. -/
theorem Parse_jitSlots {e : Env} {argv : List CStr} {o : Options} (h : argv.length ≠ 1) :
    (Parse e argv o).2.jitSlots =
      (loop e (argv.headD []) 0 (State.init o) argv.tail).state.jitSlots := by
  unfold Parse
  dsimp only
  rw [if_neg h]
  cases loop e (argv.headD []) 0 (State.init o) argv.tail with
  | ret st => rfl
  | done st =>
    obtain ⟨h1, h2, -⟩ := validate_state (argv.headD []) st
    unfold State.jitSlots Scan.state
    dsimp only
    rw [h1, h2]


/-- C17. Parsing into the default record, let the scan process the non-empty compiler
paths `p1, ps..` in this order (each the value of a `-jit` switch or a positional
token with the shared-library suffix). Then in the state `Parse` ends in,
`nameOfJit = p1` and `nameOfJit2` is the last of `ps`: unset when there is one path
only, the last path when there are two or more. No pass that processes a non-empty
compiler path returns false, in whatever state. -/
theorem compiler_slots (e : Env) (argv : List CStr) (p1 : CStr) (ps : List CStr)
    (hpaths : compilerPaths e argv Options.default = p1 :: ps)
    (hne : ∀ p ∈ p1 :: ps, p ≠ []) :
    (Parse e argv Options.default).2.o.nameOfJit = some p1 ∧
      (Parse e argv Options.default).2.o.nameOfJit2 = ps.getLast? ∧
      ∀ (st : State) (tok : CStr) (rest : List CStr) (p : CStr),
        jitArg e tok rest = some p → p ≠ [] →
        ∃ st1 k, step e (argv.headD []) st tok rest = Step.next st1 k := by
  have hlen : argv.length ≠ 1 := by
    intro h1
    cases argv with
    | nil => cases h1
    | cons a as =>
      cases as with
      | nil => cases hpaths
      | cons b bs => simp at h1
  have hslots := Parse_jitSlots (e := e) (o := Options.default) hlen
  have hpaths' : overHeads (jitArg e)
      (heads e (argv.headD []) 0 (State.init Options.default) argv.tail) = p1 :: ps := hpaths
  rw [loop_jitSlots _ _ _ (by rw [hpaths']; exact hne), hpaths', List.foldl_cons,
    show fillJitSlot (State.init Options.default).jitSlots p1 = (some p1, none, true) from rfl,
    foldl_fillJitSlot_found] at hslots
  have h1 := congrArg Prod.fst hslots
  have h2 := congrArg (fun s : Option CStr × Option CStr × Bool => s.2.1) hslots
  refine ⟨h1, ?_, ?_⟩
  · refine Eq.trans h2 ?_
    dsimp only
    cases ps.getLast? <;> rfl
  · intro st tok rest p hj hp
    obtain ⟨st1, k, hs, -⟩ := step_jitArg_some hj hp (argv.headD []) st
    exact ⟨st1, k, hs⟩

/-- C17 at `prog -jit a.so b.so m.mch c.so` in the Linux build: three compiler paths,
the third one ends up in the second slot. -/
theorem compiler_slots_witness :
    (Parse linux (cmd ["prog", "-jit", "a.so", "b.so", "m.mch", "c.so"])
        Options.default).2.o.nameOfJit = some "a.so".toList ∧
      (Parse linux (cmd ["prog", "-jit", "a.so", "b.so", "m.mch", "c.so"])
        Options.default).2.o.nameOfJit2 = (cmd ["b.so", "c.so"]).getLast? :=
  ⟨(compiler_slots linux (cmd ["prog", "-jit", "a.so", "b.so", "m.mch", "c.so"])
      "a.so".toList (cmd ["b.so", "c.so"]) (by decide) (by decide)).1,
    (compiler_slots linux (cmd ["prog", "-jit", "a.so", "b.so", "m.mch", "c.so"])
      "a.so".toList (cmd ["b.so", "c.so"]) (by decide) (by decide)).2.1⟩

/-! ## What the parser prints -/

/-- A successful pass prints nothing: it adds at most a call into the logger. -/
theorem execSwitch_next_out {e : Env} {prog : CStr} {rest : List CStr} {st st1 : State}
    {sw : Switch} {k : Nat} (h : execSwitch e prog rest st sw = Step.next st1 k) :
    ∃ ev, st1.out = st.out ++ ev ∧ ∀ x ∈ ev, x.isUsage = false ∧ x.isError = false := by
  cases sw <;> rcases rest with _ | ⟨v, _ | ⟨w, r⟩⟩ <;>
    simp only [execSwitch, withValue, List.tail, failHelp, failError, processMethodContext,
      processJit] at h <;>
    (try split_ifs at h) <;> cases h <;>
    first
      | exact ⟨[], (List.append_nil _).symm, fun x hx => by cases hx⟩
      | exact ⟨[_], rfl, fun x hx => by
          rw [List.mem_singleton] at hx; subst hx; exact ⟨rfl, rfl⟩⟩

theorem step_next_out {e : Env} {prog : CStr} {st st1 : State} {tok : CStr}
    {rest : List CStr} {k : Nat} (h : step e prog st tok rest = Step.next st1 k) :
    ∃ ev, st1.out = st.out ++ ev ∧ ∀ x ∈ ev, x.isUsage = false ∧ x.isError = false := by
  rcases step_next_elim h with ⟨-, -, h3⟩ | ⟨-, h3⟩
  · exact execSwitch_next_out h3
  · refine ⟨[], ?_, fun x hx => by cases hx⟩
    rw [List.append_nil]
    unfold positional at h3
    split at h3
    · cases h3
    · simp only [processJit, processMethodContext, failError] at h3
      split_ifs at h3 <;> cases h3 <;> rfl

/-- A pass over a switch that returns false prints the usage text, preceded by a
diagnostic except in the quiet cases. -/
theorem execSwitch_ret_out {e : Env} {prog : CStr} {rest : List CStr} {st st1 : State}
    {sw : Switch} (h : execSwitch e prog rest st sw = Step.ret st1) :
    ((decide (sw = Switch.help) || (sw.takesValue && decide (rest = []))
          || (decide (sw = Switch.stride) && decide (rest.length = 1))) = true ∧
        st1.out = st.out ++ [Event.DumpHelp prog]) ∨
      ((decide (sw = Switch.help) || (sw.takesValue && decide (rest = []))
          || (decide (sw = Switch.stride) && decide (rest.length = 1))) = false ∧
        ∃ m, st1.out = st.out ++ [Event.LogError m, Event.DumpHelp prog]) := by
  cases sw <;> rcases rest with _ | ⟨v, _ | ⟨w, r⟩⟩ <;>
    simp only [execSwitch, withValue, List.tail, failHelp, failError, processMethodContext,
      processJit] at h <;>
    (try split_ifs at h) <;> cases h <;>
    first
      | exact Or.inl ⟨rfl, rfl⟩
      | exact Or.inr ⟨rfl, _, List.append_assoc _ _ _⟩


/-- A pass that returns false prints the usage text last, preceded by a diagnostic
unless the pass is a quiet one. -/
theorem step_ret_out {e : Env} {prog : CStr} {st st1 : State} {tok : CStr}
    {rest : List CStr} (h : step e prog st tok rest = Step.ret st1) :
    (quietPass e tok rest = true ∧ st1.out = st.out ++ [Event.DumpHelp prog]) ∨
      (quietPass e tok rest = false ∧
        ∃ m, st1.out = st.out ++ [Event.LogError m, Event.DumpHelp prog]) := by
  unfold step at h
  unfold quietPass
  by_cases hsw : isASwitch e tok = true
  · rw [if_pos hsw] at h ⊢
    by_cases hlen : strlen tok > 1
    · rw [if_pos hlen] at h
      rw [selects_of_switch hsw hlen]
      exact execSwitch_ret_out h
    · rw [if_neg hlen] at h
      cases h
      have hnone : selects e tok = none := by
        unfold selects
        rw [if_neg (fun hh => hlen hh.2)]
      rw [hnone]
      exact Or.inl ⟨rfl, rfl⟩
  · rw [if_neg hsw] at h ⊢
    unfold positional at h
    cases hd : strrchr tok '.' with
    | none =>
      rw [hd] at h
      cases h
      exact Or.inl ⟨rfl, rfl⟩
    | some d =>
      rw [hd] at h
      dsimp only at h
      simp only [processJit, processMethodContext, failError] at h
      split_ifs at h <;> cases h <;> exact Or.inr ⟨rfl, _, List.append_assoc _ _ _⟩

/-- A pass of a quiet kind returns false. -/
theorem step_of_quietPass {e : Env} {tok : CStr} {rest : List CStr}
    (hq : quietPass e tok rest = true) (prog : CStr) (st : State) :
    ∃ st1, step e prog st tok rest = Step.ret st1 := by
  unfold quietPass at hq
  unfold step
  by_cases hsw : isASwitch e tok = true
  · rw [if_pos hsw] at hq ⊢
    by_cases hlen : strlen tok > 1
    · rw [if_pos hlen]
      rw [selects_of_switch hsw hlen] at hq
      dsimp only at hq
      generalize switchOf e tok.tail (strlen tok - 1) = sw at hq
      cases sw <;> rcases rest with _ | ⟨v, _ | ⟨w, r⟩⟩ <;>
        first
          | exact ⟨_, rfl⟩
          | (exfalso; revert hq; simp [Switch.takesValue])
    · rw [if_neg hlen]
      exact ⟨_, rfl⟩
  · rw [if_neg hsw] at hq ⊢
    unfold positional
    cases hd : strrchr tok '.' with
    | none => exact ⟨_, rfl⟩
    | some d => rw [hd] at hq; cases hq

/-- A scan that returns false does so in the pass at one of its loop heads. -/
theorem heads_of_ret {e : Env} {prog : CStr} {st1 : State} :
    ∀ (toks : List CStr) (used : Nat) (st : State),
      loop e prog used st toks = Scan.ret st1 →
      ∃ s tok rest, (s, tok :: rest) ∈ heads e prog used st toks ∧
        step e prog s tok rest = Step.ret st1
  | [], used, st, h => by rw [loop_nil] at h; cases h
  | _ :: rest, used + 1, st, h => heads_of_ret rest used st h
  | tok :: rest, 0, st, h => by
    rw [loop_zero_cons] at h
    rw [heads_zero_cons]
    cases hs : step e prog st tok rest with
    | ret s1 =>
      rw [hs] at h
      cases h
      exact ⟨st, tok, rest, List.mem_cons_self _ _, hs⟩
    | next s1 k =>
      rw [hs] at h
      obtain ⟨s, t, r, hmem, hstep⟩ := heads_of_ret rest k s1 h
      exact ⟨s, t, r, List.mem_cons_of_mem _ hmem, hstep⟩

/-- No usage text has been printed at any loop head of a scan that started without. -/
theorem heads_no_usage {e : Env} {prog : CStr} {c : State × List CStr} :
    ∀ (toks : List CStr) (used : Nat) (st : State),
      (∀ x ∈ st.out, x.isUsage = false) → c ∈ heads e prog used st toks →
      ∀ x ∈ c.1.out, x.isUsage = false
  | [], used, st, _, hc => by cases used <;> simp [heads] at hc
  | _ :: rest, used + 1, st, h0, hc => heads_no_usage rest used st h0 hc
  | tok :: rest, 0, st, h0, hc => by
    rw [heads_zero_cons] at hc
    rcases List.mem_cons.1 hc with rfl | hc
    · exact h0
    · cases hs : step e prog st tok rest with
      | ret s1 => rw [hs] at hc; cases hc
      | next s1 k =>
        rw [hs] at hc
        refine heads_no_usage rest k s1 ?_ hc
        obtain ⟨ev, hev, hno⟩ := step_next_out hs
        intro x hx
        rw [hev, List.mem_append] at hx
        rcases hx with hx | hx
        · exact h0 x hx
        · exact (hno x hx).1

theorem validate_out (prog : CStr) (st : State) :
    ((validate prog st).1 = true ∧ (validate prog st).2.out = st.out) ∨
      ((validate prog st).1 = false ∧
        ∃ m, (validate prog st).2.out = st.out ++ [Event.LogError m, Event.DumpHelp prog]) := by
  unfold validate
  dsimp only
  split_ifs <;>
    first
      | exact Or.inl ⟨rfl, rfl⟩
      | exact Or.inr ⟨rfl, _, List.append_assoc _ _ _⟩


/-! ## C18: the usage text is printed exactly when `Parse` returns false -/

/-- C18. For every argument vector (and record): if `Parse` returns true, the usage
text is not printed; if `Parse` returns false, the usage text is the last thing
written, and it is not printed before. So it is printed if and only if `Parse`
returns false, and then exactly once. -/
theorem usage_printed_iff_false (e : Env) (argv : List CStr) (o : Options) :
    ((Parse e argv o).1 = true → ∀ x ∈ (Parse e argv o).2.out, x.isUsage = false) ∧
      ((Parse e argv o).1 = false →
        ∃ pre, (Parse e argv o).2.out = pre ++ [Event.DumpHelp (argv.headD [])] ∧
          ∀ x ∈ pre, x.isUsage = false) := by
  have h0 : ∀ x ∈ (State.init o).out, x.isUsage = false := fun x hx => by cases hx
  unfold Parse
  dsimp only
  by_cases hlen : argv.length = 1
  · rw [if_pos hlen]
    exact ⟨fun h => (by cases h), fun _ => ⟨[], rfl, fun x hx => by cases hx⟩⟩
  · rw [if_neg hlen]
    cases hl : loop e (argv.headD []) 0 (State.init o) argv.tail with
    | ret st1 =>
      dsimp only
      refine ⟨fun h => (by cases h), fun _ => ?_⟩
      obtain ⟨s, tok, rest, hmem, hstep⟩ := heads_of_ret _ _ _ hl
      have hs := heads_no_usage _ _ _ h0 hmem
      rcases step_ret_out hstep with ⟨-, hout⟩ | ⟨-, m, hout⟩
      · exact ⟨s.out, hout, hs⟩
      · refine ⟨s.out ++ [Event.LogError m], by rw [hout]; simp, ?_⟩
        intro x hx
        rw [List.mem_append, List.mem_singleton] at hx
        rcases hx with hx | rfl
        · exact hs x hx
        · rfl
    | done stf =>
      dsimp only
      have hs : ∀ x ∈ stf.out, x.isUsage = false :=
        loop_done_inv (fun s => ∀ x ∈ s.out, x.isUsage = false)
          (fun s _ _ s1 _ hP hstep => by
            obtain ⟨ev, hev, hno⟩ := step_next_out hstep
            intro x hx
            rw [hev, List.mem_append] at hx
            rcases hx with hx | hx
            · exact hP x hx
            · exact (hno x hx).1)
          _ _ _ _ h0 hl
      rcases validate_out (argv.headD []) stf with ⟨hv, hout⟩ | ⟨hv, m, hout⟩
      · refine ⟨fun _ => by rw [hout]; exact hs, fun h => ?_⟩
        rw [hv] at h
        cases h
      · refine ⟨fun h => (by rw [hv] at h; cases h), fun _ => ?_⟩
        refine ⟨stf.out ++ [Event.LogError m], by rw [hout]; simp, ?_⟩
        intro x hx
        rw [List.mem_append, List.mem_singleton] at hx
        rcases hx with hx | rfl
        · exact hs x hx
        · rfl

/-- C18 at `prog a.so -bogus` in the Linux build. -/
theorem usage_printed_iff_false_witness :
    ∃ pre, (Parse linux (cmd ["prog", "a.so", "-bogus"]) Options.default).2.out =
        pre ++ [Event.DumpHelp ((cmd ["prog", "a.so", "-bogus"]).headD [])] ∧
      ∀ x ∈ pre, x.isUsage = false :=
  (usage_printed_iff_false linux (cmd ["prog", "a.so", "-bogus"]) Options.default).2
    (by decide)

/-! ## C19: the diagnostic before the usage text -/

/-- C19, as the code has it. Let `Parse` return false on a command line that is not the
bare invocation. If none of the tokens the scan classifies makes a quiet pass
(a help switch, a switch introducer alone, a value-taking switch with its value
missing, a positional token without a `.`), a diagnostic is written immediately
before the usage text. A quiet pass returns false after printing the usage text
alone. -/
theorem diagnostic_unless_quiet (e : Env) (argv : List CStr) (o : Options) :
    ((Parse e argv o).1 = false → argv.length ≠ 1 →
        (∀ c ∈ parseHeads e argv o, quietPass e (c.2.headD []) c.2.tail = false) →
        ∃ pre m, (Parse e argv o).2.out =
          pre ++ [Event.LogError m, Event.DumpHelp (argv.headD [])]) ∧
      ∀ st tok rest, (st, tok :: rest) ∈ parseHeads e argv o →
        quietPass e tok rest = true →
        (Parse e argv o).1 = false ∧
          (Parse e argv o).2.out = st.out ++ [Event.DumpHelp (argv.headD [])] := by
  constructor
  · intro hret hlen hloud
    unfold Parse at hret ⊢
    dsimp only at hret ⊢
    rw [if_neg hlen] at hret ⊢
    cases hl : loop e (argv.headD []) 0 (State.init o) argv.tail with
    | ret st1 =>
      dsimp only
      obtain ⟨s, tok, rest, hmem, hstep⟩ := heads_of_ret _ _ _ hl
      rcases step_ret_out hstep with ⟨hq, -⟩ | ⟨-, m, hout⟩
      · have := hloud _ hmem
        rw [show quietPass e ((s, tok :: rest).2.headD []) (s, tok :: rest).2.tail =
          quietPass e tok rest from rfl, hq] at this
        cases this
      · exact ⟨s.out, m, hout⟩
    | done stf =>
      rw [hl] at hret
      dsimp only at hret ⊢
      rcases validate_out (argv.headD []) stf with ⟨hv, -⟩ | ⟨-, m, hout⟩
      · rw [hv] at hret
        cases hret
      · exact ⟨stf.out, m, hout⟩
  · intro st tok rest hmem hq
    obtain ⟨st1, hstep⟩ := step_of_quietPass hq (argv.headD []) st
    rw [Parse_of_head_ret hmem hstep]
    refine ⟨rfl, ?_⟩
    rcases step_ret_out hstep with ⟨-, hout⟩ | ⟨hq', -⟩
    · exact hout
    · rw [hq] at hq'
      cases hq'

/-- C19 at `prog a.so -bogus` in the Linux build: an unknown switch gets a diagnostic. -/
theorem diagnostic_unless_quiet_witness :
    ∃ pre m, (Parse linux (cmd ["prog", "a.so", "-bogus"]) Options.default).2.out =
      pre ++ [Event.LogError m, Event.DumpHelp ((cmd ["prog", "a.so", "-bogus"]).headD [])] :=
  (diagnostic_unless_quiet linux (cmd ["prog", "a.so", "-bogus"]) Options.default).1
    (by decide) (by decide) (by decide)

/-- C19 as stated fails: in the Linux build `prog a.so m.mch -load` (value missing) and
`prog a.so m.mch notes` (no extension) return false having written the usage text
and no diagnostic. -/
theorem violation_without_diagnostic :
    ((Parse linux (cmd ["prog", "a.so", "m.mch", "-load"]) Options.default).1 = false ∧
        (Parse linux (cmd ["prog", "a.so", "m.mch", "-load"]) Options.default).2.out =
          [Event.DumpHelp "prog".toList]) ∧
      ((Parse linux (cmd ["prog", "a.so", "m.mch", "notes"]) Options.default).1 = false ∧
        (Parse linux (cmd ["prog", "a.so", "m.mch", "notes"]) Options.default).2.out =
          [Event.DumpHelp "prog".toList]) :=
  ⟨⟨by decide, by decide⟩, ⟨by decide, by decide⟩⟩

/-! ## Replacing a classified token by a switch and its value -/

theorem execSwitch_splice {e : Env} {prog : CStr} {st st1 : State} {sw : Switch} {k : Nat}
    (pre : List CStr) {X Y : CStr} {rest1 rest2 : List CStr} (hX : X.all isdigit = false)
    (hY : Y.all isdigit = false)
    (h : execSwitch e prog (pre ++ X :: rest1) st sw = Step.next st1 k)
    (hk : k ≤ pre.length) :
    execSwitch e prog (pre ++ Y :: rest2) st sw = Step.next st1 k := by
  rcases pre with _ | ⟨a, _ | ⟨b, pre⟩⟩
  · have hk0 : k = 0 := by simpa using hk
    subst hk0
    cases sw <;>
      simp only [execSwitch, withValue, List.tail, failHelp, failError, processMethodContext,
        processJit, List.nil_append, hX, hY] at h ⊢ <;>
      first
        | exact h
        | cases h
        | (split_ifs at h <;> cases h)
        | (rcases rest1 with _ | ⟨w, r⟩ <;>
            (try simp only [execSwitch, withValue, List.tail, failHelp] at h) <;>
            (try split_ifs at h) <;> cases h)
  · have hk1 : k ≤ 1 := by simpa using hk
    cases sw <;>
      simp only [execSwitch, withValue, List.tail, failHelp, failError, processMethodContext,
        processJit, List.cons_append, List.nil_append] at h ⊢ <;>
      first
        | exact h
        | (rcases rest1 with _ | ⟨w, r⟩ <;> (try split_ifs at h) <;> cases h <;> omega)
  · rw [← execSwitch_take] at h ⊢
    exact h

/-- A successful pass is not affected by what stands in place of a token it does not
reach and of the tokens after it, when no string of digits is involved. -/
theorem step_splice {e : Env} {prog : CStr} {st st1 : State} {tok : CStr} {k : Nat}
    (pre : List CStr) {X Y : CStr} {rest1 rest2 : List CStr} (hX : X.all isdigit = false)
    (hY : Y.all isdigit = false)
    (h : step e prog st tok (pre ++ X :: rest1) = Step.next st1 k) (hk : k ≤ pre.length) :
    step e prog st tok (pre ++ Y :: rest2) = Step.next st1 k := by
  rcases step_next_elim h with ⟨h1, h2, h3⟩ | ⟨h1, h3⟩
  · unfold step
    rw [if_pos h1, if_pos h2]
    exact execSwitch_splice pre hX hY h3 hk
  · unfold step
    rw [h1]
    exact h3

/-- If the scan classifies the token after `pre`, it reaches that place in the same
state when the token and what follows it are replaced. -/
theorem heads_splice {e : Env} {prog : CStr} {X Y : CStr} {rest1 rest2 : List CStr}
    {st : State} (hX : X.all isdigit = false) (hY : Y.all isdigit = false) :
    ∀ (pre : List CStr) (used : Nat) (st0 : State),
      (st, X :: rest1) ∈ heads e prog used st0 (pre ++ X :: rest1) →
      (st, Y :: rest2) ∈ heads e prog used st0 (pre ++ Y :: rest2)
  | [], 0, st0, h => by
    rw [List.nil_append, heads_zero_cons] at h ⊢
    rcases List.mem_cons.1 h with heq | h
    · cases heq
      exact List.mem_cons_self _ _
    · exfalso
      cases hs : step e prog st0 X rest1 with
      | ret st1 => rw [hs] at h; simp at h
      | next st1 k =>
        rw [hs] at h
        have := heads_length _ _ _ h
        simp at this
        omega
  | [], used + 1, st0, h => by
    exfalso
    have := heads_length _ _ _ h
    simp at this
  | t :: pre, used + 1, st0, h => heads_splice hX hY pre used st0 h
  | t :: pre, 0, st0, h => by
    rw [List.cons_append, heads_zero_cons] at h ⊢
    rcases List.mem_cons.1 h with heq | h
    · exfalso
      have := congrArg (fun c : State × List CStr => c.2.length) heq
      simp at this
      omega
    · cases hs : step e prog st0 t (pre ++ X :: rest1) with
      | ret st1 => rw [hs] at h; simp at h
      | next st1 k =>
        rw [hs] at h
        have hlen := heads_length _ _ _ h
        have hk : k ≤ pre.length := by
          simp at hlen
          omega
        rw [step_splice pre hX hY hs hk]
        exact List.mem_cons_of_mem _ (heads_splice hX hY pre k st1 h)


/-! ## C20: positional tokens and the explicit switches -/

theorem not_all_isdigit_of_strrchr {tok d : CStr} (h : strrchr tok '.' = some d) :
    tok.all isdigit = false := by
  have hmem : '.' ∈ tok := by
    by_contra hno
    rw [(strrchr_eq_none_iff '.' tok).2 hno] at h
    cases h
  exact List.all_eq_false.2 ⟨'.', hmem, by decide⟩

/-- The pass over a positional token with the shared-library suffix and the pass over
`-jit` followed by that token end in the same state. -/
theorem step_positional_jit {e : Env} {P : CStr} {rest : List CStr}
    (hpos : isASwitch e P = false) (hj : jitArg e P rest = some P) (prog : CStr)
    (st : State) :
    ∃ st1, step e prog st P rest = Step.next st1 0 ∧
      step e prog st "-jit".toList (P :: rest) = Step.next st1 1 := by
  unfold jitArg at hj
  rw [hpos] at hj
  simp only [Bool.false_eq_true, if_false] at hj
  have hsel : selects e "-jit".toList = some Switch.jit := rfl
  rw [step_of_selects hsel]
  unfold step positional
  rw [hpos]
  simp only [Bool.false_eq_true, if_false]
  cases hd : strrchr P '.' with
  | none => rw [hd] at hj; cases hj
  | some d =>
    rw [hd] at hj
    dsimp only at hj ⊢
    have hne : P ≠ [] := by
      rintro rfl
      simp [strrchr] at hd
    split_ifs at hj with h1
    rw [if_pos h1]
    have hlen0 : ¬ strlen P = 0 := by simpa [strlen] using hne
    simp only [execSwitch, withValue, processJit, hlen0, if_false]
    split_ifs
    · exact ⟨_, rfl, rfl⟩
    · exact ⟨_, rfl, rfl⟩

theorem Parse_eq_of_loop_eq {e : Env} {prog : CStr} {args1 args2 : List CStr} {o : Options}
    (h1 : args1 ≠ []) (h2 : args2 ≠ [])
    (h : loop e prog 0 (State.init o) args1 = loop e prog 0 (State.init o) args2) :
    Parse e (prog :: args1) o = Parse e (prog :: args2) o := by
  unfold Parse
  have l1 : (prog :: args1).length ≠ 1 := by
    cases args1 with
    | nil => exact absurd rfl h1
    | cons a as => simp
  have l2 : (prog :: args2).length ≠ 1 := by
    cases args2 with
    | nil => exact absurd rfl h2
    | cons a as => simp
  dsimp only
  rw [if_neg l1, if_neg l2]
  show (match loop e prog 0 (State.init o) args1 with
    | Scan.ret st => (false, st)
    | Scan.done st => validate prog st) = _
  rw [h]
  rfl

/-- C20. Let the scan of `prog pre.. P rest..` classify `P` positionally. If `P` is
taken as a compiler path (it has the shared-library suffix), replacing `P` by the
two tokens `-jit P` leaves the result of `Parse` unchanged; if `P` is taken as a
context file (extension `.mc`, `.mch` or `.mct`), replacing `P` by `-load P` leaves
it unchanged: same return value, same record, same output. -/
theorem positional_same_as_switch (e : Env) (prog : CStr) (pre rest : List CStr)
    (o : Options) (P : CStr) (st : State)
    (hpos : (st, P :: rest) ∈ parseHeads e (prog :: (pre ++ P :: rest)) o)
    (hP : isASwitch e P = false) :
    (jitArg e P rest = some P →
        Parse e (prog :: (pre ++ "-jit".toList :: P :: rest)) o =
          Parse e (prog :: (pre ++ P :: rest)) o) ∧
      (contextArg e P rest = some P →
        Parse e (prog :: (pre ++ "-load".toList :: P :: rest)) o =
          Parse e (prog :: (pre ++ P :: rest)) o) := by
  have hpos0 : (st, P :: rest) ∈ heads e prog 0 (State.init o) (pre ++ P :: rest) := hpos
  have hloopP := loop_eq_of_head _ _ _ hpos0
  have key : ∀ (sw : CStr) (st1 : State), sw.all isdigit = false → P.all isdigit = false →
      step e prog st P rest = Step.next st1 0 →
      step e prog st sw (P :: rest) = Step.next st1 1 →
      Parse e (prog :: (pre ++ sw :: P :: rest)) o =
        Parse e (prog :: (pre ++ P :: rest)) o := by
    intro sw st1 hY hX hs1 hs2
    refine Parse_eq_of_loop_eq (by simp) (by simp) ?_
    have hpos' := @heads_splice e prog P sw rest (P :: rest) st hX hY pre 0 (State.init o) hpos0
    rw [hloopP, loop_eq_of_head _ _ _ hpos']
    show loop e prog 0 st (sw :: P :: rest) = loop e prog 0 st (P :: rest)
    rw [loop_of_next hs1, loop_of_next hs2]
    rfl
  constructor
  · intro hj
    obtain ⟨st1, hs1, hs2⟩ := step_positional_jit hP hj prog st
    have hX : P.all isdigit = false := by
      unfold jitArg at hj
      rw [hP] at hj
      simp only [Bool.false_eq_true, if_false] at hj
      cases hd : strrchr P '.' with
      | none => rw [hd] at hj; cases hj
      | some d => exact not_all_isdigit_of_strrchr hd
    exact key _ st1 (by decide) hX hs1 hs2
  · intro hc
    have hX : P.all isdigit = false := by
      unfold contextArg at hc
      rw [hP] at hc
      simp only [Bool.false_eq_true, if_false] at hc
      cases hd : strrchr P '.' with
      | none => rw [hd] at hc; cases hc
      | some d => exact not_all_isdigit_of_strrchr hd
    have hne : P ≠ [] := by
      rintro rfl
      cases hX
    exact key _ _ (by decide) hX (step_positional_context hP hc prog st)
      (step_load (show selects e "-load".toList = some Switch.load from rfl) prog st hne rest)

/-- C20 at `prog -applyDiff a.so m.mch` against `prog -applyDiff -jit a.so m.mch` in the
Linux build. -/
theorem positional_same_as_switch_witness :
    Parse linux (cmd ["prog", "-applyDiff", "-jit", "a.so", "m.mch"]) Options.default =
      Parse linux (cmd ["prog", "-applyDiff", "a.so", "m.mch"]) Options.default :=
  (positional_same_as_switch linux "prog".toList (cmd ["-applyDiff"]) (cmd ["m.mch"])
    Options.default "a.so".toList
    { State.init Options.default with o := { Options.default with applyDiff := true } }
    (by decide) (by decide)).1 (by decide)

/-! ## The loop heads after a given one -/

/-- The pass over a loop head hands its successors to the list of heads. -/
theorem heads_next {e : Env} {prog : CStr} {st st1 : State} {tok : CStr} {rest : List CStr}
    {k : Nat} (hs : step e prog st tok rest = Step.next st1 k) :
    ∀ (toks : List CStr) (used : Nat) (st0 : State),
      (st, tok :: rest) ∈ heads e prog used st0 toks →
      ∀ c ∈ heads e prog k st1 rest, c ∈ heads e prog used st0 toks
  | [], used, st0, h, _, _ => by cases used <;> simp [heads] at h
  | _ :: r, used + 1, st0, h, c, hc => heads_next hs r used st0 h c hc
  | t :: r, 0, st0, h, c, hc => by
    rw [heads_zero_cons] at h ⊢
    rcases List.mem_cons.1 h with heq | h
    · cases heq
      rw [hs]
      exact List.mem_cons_of_mem _ hc
    · cases hs0 : step e prog st0 t r with
      | ret s1 => rw [hs0] at h; simp at h
      | next s1 k0 =>
        rw [hs0] at h
        exact List.mem_cons_of_mem _ (heads_next hs r k0 s1 h c hc)

/-- A loop head that starts further on than a given head comes after the pass over
that head. -/
theorem heads_after {e : Env} {prog : CStr} {st st1 : State} {tok : CStr}
    {rest : List CStr} {k : Nat} {c : State × List CStr}
    (hs : step e prog st tok rest = Step.next st1 k) (hlen : c.2.length ≤ rest.length) :
    ∀ (toks : List CStr) (used : Nat) (st0 : State),
      (st, tok :: rest) ∈ heads e prog used st0 toks → c ∈ heads e prog used st0 toks →
      c ∈ heads e prog k st1 rest
  | [], used, st0, h, _ => by cases used <;> simp [heads] at h
  | _ :: r, used + 1, st0, h, hc => heads_after hs hlen r used st0 h hc
  | t :: r, 0, st0, h, hc => by
    rw [heads_zero_cons] at h hc
    rcases List.mem_cons.1 h with heq | h
    · cases heq
      rcases List.mem_cons.1 hc with rfl | hc
      · simp at hlen
      · rw [hs] at hc
        exact hc
    · cases hs0 : step e prog st0 t r with
      | ret s1 => rw [hs0] at h; simp at h
      | next s1 k0 =>
        rw [hs0] at h hc
        rcases List.mem_cons.1 hc with rfl | hc
        · have := heads_length r k0 s1 h
          simp only [List.length_cons] at this hlen
          omega
        · exact heads_after hs hlen r k0 s1 h hc

/-- After a pass that returns there is no further loop head. -/
theorem heads_after_ret {e : Env} {prog : CStr} {st st1 : State} {tok : CStr}
    {rest : List CStr} {c : State × List CStr}
    (hs : step e prog st tok rest = Step.ret st1) (hlen : c.2.length ≤ rest.length) :
    ∀ (toks : List CStr) (used : Nat) (st0 : State),
      (st, tok :: rest) ∈ heads e prog used st0 toks → c ∉ heads e prog used st0 toks
  | [], used, st0, h, _ => by cases used <;> simp [heads] at h
  | _ :: r, used + 1, st0, h, hc => heads_after_ret hs hlen r used st0 h hc
  | t :: r, 0, st0, h, hc => by
    rw [heads_zero_cons] at h hc
    rcases List.mem_cons.1 h with heq | h
    · cases heq
      rcases List.mem_cons.1 hc with rfl | hc
      · simp at hlen
      · rw [hs] at hc
        simp at hc
    · cases hs0 : step e prog st0 t r with
      | ret s1 => rw [hs0] at h; simp at h
      | next s1 k0 =>
        rw [hs0] at h hc
        rcases List.mem_cons.1 hc with rfl | hc
        · have := heads_length r k0 s1 h
          simp only [List.length_cons] at this hlen
          omega
        · exact heads_after_ret hs hlen r k0 s1 h hc

/-- A token that a pass consumes (by advancing `i` itself) is never at a loop head. -/
theorem consumed_not_head {e : Env} {prog : CStr} {st st1 : State} {tok t : CStr}
    {rest : List CStr} {k : Nat} {toks : List CStr} {st0 : State}
    (hc : (st, tok :: t :: rest) ∈ heads e prog 0 st0 toks)
    (hs : step e prog st tok (t :: rest) = Step.next st1 (k + 1)) (s : State) :
    (s, t :: rest) ∉ heads e prog 0 st0 toks := by
  intro hmem
  have h1 := heads_after hs (c := (s, t :: rest)) (le_refl _) toks 0 st0 hc hmem
  have h2 := heads_length _ _ _ h1
  simp only [List.length_cons] at h2
  omega

/-! ## C21: the token after `-parallel` -/

/-- C21, as the code has it. Let the scan classify a token that selects `-parallel`
and is followed by a token `nxt`. The token `nxt` is classified in its turn (it is
at a loop head) exactly when one of its characters is not a decimal digit; then the
pass over `-parallel` sets `parallel`, changes nothing else (`workerCount` included)
and the next pass is over `nxt`. When every character of `nxt` is a decimal digit,
which holds of the empty string, `nxt` is consumed: `workerCount` becomes
`atoi(nxt)` and is checked against the two bounds. In particular an empty `nxt`,
when `atoi` of it is below 1 (C's `atoi` gives 0), makes `Parse` return false after
the worker-count diagnostic and the usage text, with `workerCount = atoi("")`. -/
theorem parallel_peek (e : Env) (argv : List CStr) (o : Options) (st : State)
    (tok nxt : CStr) (rest : List CStr)
    (hc : (st, tok :: nxt :: rest) ∈ parseHeads e argv o)
    (hsel : selects e tok = some Switch.parallel) :
    ((∃ s, (s, nxt :: rest) ∈ parseHeads e argv o) ↔ ∃ c ∈ nxt, isdigit c = false) ∧
      ((∃ c ∈ nxt, isdigit c = false) →
        step e (argv.headD []) st tok (nxt :: rest) = Step.next st.setParallel 0 ∧
          (st.setParallel, nxt :: rest) ∈ parseHeads e argv o) ∧
      ((∀ c ∈ nxt, isdigit c = true) →
        step e (argv.headD []) st tok (nxt :: rest) =
          if e.atoi nxt < 1 then
            failError (argv.headD [])
              "Invalid workers count specified, workers count must be at least 1."
              { st with o := { st.o with parallel := true, workerCount := e.atoi nxt } }
          else if e.atoi nxt > e.MAXIMUM_WAIT_OBJECTS then
            failError (argv.headD [])
              "Invalid workers count specified, workers count cannot be more than %d."
              { st with o := { st.o with parallel := true, workerCount := e.atoi nxt } }
          else
            Step.next
              { st with o := { st.o with parallel := true, workerCount := e.atoi nxt } } 1) ∧
      (nxt = [] → e.atoi [] < 1 →
        Parse e argv o =
          (false,
            { st with
              o := { st.o with parallel := true, workerCount := e.atoi [] }
              out := st.out ++
                [Event.LogError
                  "Invalid workers count specified, workers count must be at least 1."] ++
                DumpHelp (argv.headD []) })) := by
  have hsw : step e (argv.headD []) st tok (nxt :: rest) =
      execSwitch e (argv.headD []) (nxt :: rest) st Switch.parallel := step_of_selects hsel
  have hdigits : (∀ c ∈ nxt, isdigit c = true) →
      step e (argv.headD []) st tok (nxt :: rest) = _ := fun hall =>
    hsw.trans (execSwitch_parallel_digits e _ st nxt rest (List.all_eq_true.2 hall))
  have hother : (∃ c ∈ nxt, isdigit c = false) →
      step e (argv.headD []) st tok (nxt :: rest) = Step.next st.setParallel 0 ∧
        (st.setParallel, nxt :: rest) ∈ parseHeads e argv o := by
    rintro ⟨c, hmem, hd⟩
    have hall : nxt.all isdigit = false := List.all_eq_false.2 ⟨c, hmem, by simp [hd]⟩
    have hstep : step e (argv.headD []) st tok (nxt :: rest) = Step.next st.setParallel 0 := by
      rw [hsw]
      simp only [execSwitch]
      rw [if_neg (by simp [hall])]
      rfl
    refine ⟨hstep, heads_next hstep _ 0 _ hc _ ?_⟩
    rw [heads_zero_cons]
    exact List.mem_cons_self _ _
  refine ⟨⟨?_, fun h => ⟨_, (hother h).2⟩⟩, hother, hdigits, ?_⟩
  · rintro ⟨s, hs⟩
    by_contra hno
    have hall : ∀ c ∈ nxt, isdigit c = true := fun c hmem => by
      by_contra hd
      exact hno ⟨c, hmem, by simpa using hd⟩
    have hstep := hdigits hall
    split_ifs at hstep
    · exact heads_after_ret (c := (s, nxt :: rest)) hstep (le_refl _) _ 0 _ hc hs
    · exact heads_after_ret (c := (s, nxt :: rest)) hstep (le_refl _) _ 0 _ hc hs
    · exact consumed_not_head hc hstep s hs
  · rintro rfl hlow
    have hstep := hdigits (fun c hmem => by cases hmem)
    rw [if_pos hlow] at hstep
    exact Parse_of_head_ret hc hstep

/-- C21 at `prog -parallel ""` in the Linux build: the empty token is taken as the
worker count, `atoi` gives 0 and the parse fails on the lower bound. -/
theorem parallel_peek_witness :
    Parse linux (cmd ["prog", "-parallel", ""]) Options.default =
      (false,
        { State.init Options.default with
          o := { Options.default with parallel := true, workerCount := linux.atoi [] }
          out := [] ++
            [Event.LogError
              "Invalid workers count specified, workers count must be at least 1."] ++
            DumpHelp "prog".toList }) :=
  (parallel_peek linux (cmd ["prog", "-parallel", ""]) Options.default
    (State.init Options.default) "-parallel".toList [] [] (by decide) (by decide)).2.2.2
      rfl (by decide)

/-- C21 as stated fails: in the Linux build, on `prog -parallel "" a.so m.mch` the
empty token after `-parallel` is consumed. It is at no loop head, the pass over
`-parallel` does not end with only `parallel` set, and `workerCount` goes from its
default -1 to 0, on which the parse fails. -/
theorem empty_token_after_parallel_consumed :
    (State.init Options.default, cmd ["-parallel", "", "a.so", "m.mch"]) ∈
        parseHeads linux (cmd ["prog", "-parallel", "", "a.so", "m.mch"]) Options.default ∧
      selects linux "-parallel".toList = some Switch.parallel ∧
      (∀ c ∈ parseHeads linux (cmd ["prog", "-parallel", "", "a.so", "m.mch"])
          Options.default, c.2 ≠ cmd ["", "a.so", "m.mch"]) ∧
      step linux "prog".toList (State.init Options.default) "-parallel".toList
          (cmd ["", "a.so", "m.mch"]) ≠
        Step.next (State.init Options.default).setParallel 0 ∧
      Options.default.workerCount = -1 ∧
      (Parse linux (cmd ["prog", "-parallel", "", "a.so", "m.mch"])
        Options.default).2.o.workerCount = 0 ∧
      (Parse linux (cmd ["prog", "-parallel", "", "a.so", "m.mch"])
        Options.default).1 = false :=
  ⟨by decide, by decide, by decide, by decide, by decide, by decide, by decide⟩

/-! ## C22: the value of a switch is taken verbatim -/

/-- C22. Let the scan classify a token that selects one of `-load`, `-jit`,
`-reproName`, `-failingMCList`, `-diffMCList`, `-target`, `-emitMethodStats`, followed
by a token `t` (any token at all; non-empty for the first three). The pass consumes
`t` and stores `t` itself: in `nameOfInputMethodContextFile` (setting `foundFile`), in
`nameOfJit` or, once a compiler is known, `nameOfJit2`, in `reproName`, `mclFilename`,
`diffMCLFilename`, `targetArchitecture`, `methodStatsTypes` respectively, and changes
nothing else, so `breakOnError` and the output are as before. The token `t` is at no
loop head, so no branch is ever run for it, and the scan goes on in the new state
with the token after `t`. -/
theorem value_token_verbatim (e : Env) (argv : List CStr) (o : Options) (st : State)
    (tok t : CStr) (rest : List CStr) (sw : Switch)
    (hc : (st, tok :: t :: rest) ∈ parseHeads e argv o)
    (hsel : selects e tok = some sw)
    (hsw : sw ∈ [Switch.load, Switch.jit, Switch.reproName, Switch.failingMCList,
      Switch.diffMCList, Switch.target, Switch.emitMethodStats])
    (ht : sw ∈ [Switch.load, Switch.jit, Switch.reproName] → t ≠ []) :
    ∃ st1, step e (argv.headD []) st tok (t :: rest) = Step.next st1 1 ∧
      (sw = Switch.load → st1 = { st with
        o := { st.o with nameOfInputMethodContextFile := some t }
        foundFile := true }) ∧
      (sw = Switch.jit → st1 =
        if !st.foundJit then { st with o := { st.o with nameOfJit := some t }, foundJit := true }
        else { st with o := { st.o with nameOfJit2 := some t } }) ∧
      (sw = Switch.reproName → st1 = { st with o := { st.o with reproName := some t } }) ∧
      (sw = Switch.failingMCList →
        st1 = { st with o := { st.o with mclFilename := some t } }) ∧
      (sw = Switch.diffMCList →
        st1 = { st with o := { st.o with diffMCLFilename := some t } }) ∧
      (sw = Switch.target →
        st1 = { st with o := { st.o with targetArchitecture := some t } }) ∧
      (sw = Switch.emitMethodStats →
        st1 = { st with o := { st.o with methodStatsTypes := some t } }) ∧
      st1.o.breakOnError = st.o.breakOnError ∧
      st1.out = st.out ∧
      (∀ s, (s, t :: rest) ∉ parseHeads e argv o) ∧
      (∀ c ∈ heads e (argv.headD []) 0 st1 rest, c ∈ parseHeads e argv o) ∧
      loop e (argv.headD []) 0 st (tok :: t :: rest) = loop e (argv.headD []) 0 st1 rest := by
  have hstep : step e (argv.headD []) st tok (t :: rest) =
      execSwitch e (argv.headD []) (t :: rest) st sw := step_of_selects hsel
  have hlen : sw ∈ [Switch.load, Switch.jit, Switch.reproName] → ¬ strlen t = 0 :=
    fun h h0 => ht h (List.length_eq_zero.1 h0)
  have tail : ∀ st1, step e (argv.headD []) st tok (t :: rest) = Step.next st1 1 →
      (∀ s, (s, t :: rest) ∉ parseHeads e argv o) ∧
      (∀ c ∈ heads e (argv.headD []) 0 st1 rest, c ∈ parseHeads e argv o) ∧
      loop e (argv.headD []) 0 st (tok :: t :: rest) = loop e (argv.headD []) 0 st1 rest :=
    fun st1 hs => ⟨fun s => consumed_not_head hc hs s,
      fun c hmem => heads_next hs _ 0 _ hc c hmem, loop_of_next hs⟩
  simp only [List.mem_cons, List.mem_singleton, List.not_mem_nil, or_false] at hsw
  rcases hsw with rfl | rfl | rfl | rfl | rfl | rfl | rfl
  · have hs : step e (argv.headD []) st tok (t :: rest) = Step.next { st with
        o := { st.o with nameOfInputMethodContextFile := some t }
        foundFile := true } 1 := by
      rw [hstep]
      simp only [execSwitch, withValue, processMethodContext, if_neg (hlen (by decide))]
    exact ⟨_, hs, fun _ => rfl, (by intro h; cases h), (by intro h; cases h),
      (by intro h; cases h), (by intro h; cases h), (by intro h; cases h),
      (by intro h; cases h), rfl, rfl, tail _ hs⟩
  · have hs : step e (argv.headD []) st tok (t :: rest) = Step.next
        (if !st.foundJit then
          { st with o := { st.o with nameOfJit := some t }, foundJit := true }
        else { st with o := { st.o with nameOfJit2 := some t } }) 1 := by
      rw [hstep]
      simp only [execSwitch, withValue, processJit, if_neg (hlen (by decide))]
      split_ifs <;> rfl
    refine ⟨_, hs, (by intro h; cases h), fun _ => rfl, (by intro h; cases h),
      (by intro h; cases h), (by intro h; cases h), (by intro h; cases h),
      (by intro h; cases h), ?_, ?_, tail _ hs⟩ <;> split_ifs <;> rfl
  · have hs : step e (argv.headD []) st tok (t :: rest) =
        Step.next { st with o := { st.o with reproName := some t } } 1 := by
      rw [hstep]
      simp only [execSwitch, withValue, if_neg (hlen (by decide))]
    exact ⟨_, hs, (by intro h; cases h), (by intro h; cases h), fun _ => rfl,
      (by intro h; cases h), (by intro h; cases h), (by intro h; cases h),
      (by intro h; cases h), rfl, rfl, tail _ hs⟩
  · exact ⟨_, hstep, (by intro h; cases h), (by intro h; cases h), (by intro h; cases h),
      fun _ => rfl, (by intro h; cases h), (by intro h; cases h), (by intro h; cases h),
      rfl, rfl, tail _ hstep⟩
  · exact ⟨_, hstep, (by intro h; cases h), (by intro h; cases h), (by intro h; cases h),
      (by intro h; cases h), fun _ => rfl, (by intro h; cases h), (by intro h; cases h),
      rfl, rfl, tail _ hstep⟩
  · exact ⟨_, hstep, (by intro h; cases h), (by intro h; cases h), (by intro h; cases h),
      (by intro h; cases h), (by intro h; cases h), fun _ => rfl, (by intro h; cases h),
      rfl, rfl, tail _ hstep⟩
  · exact ⟨_, hstep, (by intro h; cases h), (by intro h; cases h), (by intro h; cases h),
      (by intro h; cases h), (by intro h; cases h), (by intro h; cases h), fun _ => rfl,
      rfl, rfl, tail _ hstep⟩

/-- C22 at `prog -reproName -boe a.so m.mch` in the Linux build: `-boe` becomes the
repro name, `breakOnError` stays false, and `-boe` is at no loop head. -/
theorem value_token_verbatim_witness :
    ∃ st1, step linux "prog".toList (State.init Options.default) "-reproName".toList
          (cmd ["-boe", "a.so", "m.mch"]) = Step.next st1 1 ∧
      st1.o.reproName = some "-boe".toList ∧ st1.o.breakOnError = false ∧
      ∀ s, (s, cmd ["-boe", "a.so", "m.mch"]) ∉
        parseHeads linux (cmd ["prog", "-reproName", "-boe", "a.so", "m.mch"])
          Options.default :=
  match value_token_verbatim linux (cmd ["prog", "-reproName", "-boe", "a.so", "m.mch"])
    Options.default (State.init Options.default) "-reproName".toList "-boe".toList
    (cmd ["a.so", "m.mch"]) Switch.reproName (by decide) (by decide) (by decide)
    (by decide) with
  | ⟨st1, hs, _, _, hr, _, _, _, _, hb, _, hn, _, _⟩ => ⟨st1, hs, by rw [hr rfl], hb, hn⟩

/-! ## C2: two different selection switches -/

end SuperPMI
